import Mathlib

/-!
Verification development for the coordination-geometry matching engine of
`pymatgen/analysis/chemenv/coordination_environments/coordination_geometry_finder.py`.

Modelling conventions (shallow embedding):
* 3-component machine floats are modelled as exact rationals (`Vec3` over `ℚ`);
  exact real arithmetic is the intended semantics of the numerical code.
  A second value type `NFloat` additionally models the numpy float64
  non-finite values (nan, signed inf) for the degenerate-reference analysis,
  where the 0/0 behaviour of numpy scalars decides the claim.
* `numpy.linalg.svd` is an external library routine; it is abstracted as a
  parameter `svd : Mat3 → Mat3 × Vec3 × Mat3` returning `(U, S, Vt)` exactly as
  the source destructures it.  No property of `svd` is assumed anywhere.
* helper routines imported from
  `pymatgen.analysis.chemenv.utils.coordination_geometry_utils`
  (`vectorsToMatrix`, `matrixMultiplication`, `rotateCoords`, `collinear`,
  `Plane`, `sort_separation`, `separation_in_list`) are not part of the
  source under verification; the algebraic ones are modelled from the spec
  and the geometric ones are abstracted as parameters (`PlaneOps`).
-/

/-- A 3-component vector of exact rationals (a machine `Point`). -/
structure Vec3 where
  x : ℚ
  y : ℚ
  z : ℚ
deriving DecidableEq, Repr

namespace Vec3

def add (a b : Vec3) : Vec3 := ⟨a.x + b.x, a.y + b.y, a.z + b.z⟩

def sub (a b : Vec3) : Vec3 := ⟨a.x - b.x, a.y - b.y, a.z - b.z⟩

def smulQ (q : ℚ) (a : Vec3) : Vec3 := ⟨q * a.x, q * a.y, q * a.z⟩

/-- Dot product of two vectors (`np.dot` on 3-vectors). -/
def dot (a b : Vec3) : ℚ := a.x * b.x + a.y * b.y + a.z * b.z

/-- Squared euclidean norm: `np.sum(diff * diff)` for a 3-vector `diff`. -/
def normSq (a : Vec3) : ℚ := a.x * a.x + a.y * a.y + a.z * a.z

def zero : Vec3 := ⟨0, 0, 0⟩

instance : Add Vec3 := ⟨add⟩
instance : Sub Vec3 := ⟨sub⟩
instance : SMul ℚ Vec3 := ⟨smulQ⟩
instance : Zero Vec3 := ⟨zero⟩

theorem normSq_nonneg (a : Vec3) : 0 ≤ a.normSq := by
  have hx : 0 ≤ a.x * a.x := mul_self_nonneg _
  have hy : 0 ≤ a.y * a.y := mul_self_nonneg _
  have hz : 0 ≤ a.z * a.z := mul_self_nonneg _
  unfold normSq; linarith

theorem normSq_eq_zero {a : Vec3} (h : a.normSq = 0) : a = Vec3.zero := by
  have hx : 0 ≤ a.x * a.x := mul_self_nonneg _
  have hy : 0 ≤ a.y * a.y := mul_self_nonneg _
  have hz : 0 ≤ a.z * a.z := mul_self_nonneg _
  unfold normSq at h
  have hx0 : a.x * a.x = 0 := by linarith
  have hy0 : a.y * a.y = 0 := by linarith
  have hz0 : a.z * a.z = 0 := by linarith
  have : a.x = 0 := by exact mul_self_eq_zero.mp hx0
  have : a.y = 0 := by exact mul_self_eq_zero.mp hy0
  have : a.z = 0 := by exact mul_self_eq_zero.mp hz0
  cases a
  simp_all [Vec3.zero]

theorem sub_self_eq_zero (a : Vec3) : a - a = Vec3.zero := by
  show Vec3.sub a a = Vec3.zero
  simp [Vec3.sub, Vec3.zero]

theorem one_smul_eq (a : Vec3) : (1 : ℚ) • a = a := by
  show Vec3.smulQ 1 a = a
  simp [Vec3.smulQ]

theorem normSq_zero_val : Vec3.zero.normSq = 0 := by simp [Vec3.zero, normSq]

end Vec3

/-- A 3×3 matrix, stored as three rows. -/
structure Mat3 where
  r0 : Vec3
  r1 : Vec3
  r2 : Vec3
deriving DecidableEq, Repr

namespace Mat3

/-- Identity matrix (`np.eye(3)`). -/
def idMat : Mat3 := ⟨⟨1, 0, 0⟩, ⟨0, 1, 0⟩, ⟨0, 0, 1⟩⟩

def zeroMat : Mat3 := ⟨Vec3.zero, Vec3.zero, Vec3.zero⟩

def addM (a b : Mat3) : Mat3 := ⟨a.r0 + b.r0, a.r1 + b.r1, a.r2 + b.r2⟩

/-- `numpy.transpose`. -/
def transposeM (m : Mat3) : Mat3 :=
  ⟨⟨m.r0.x, m.r1.x, m.r2.x⟩, ⟨m.r0.y, m.r1.y, m.r2.y⟩, ⟨m.r0.z, m.r1.z, m.r2.z⟩⟩

/-- Column `j`-extraction helpers used for the matrix product. -/
def col0 (m : Mat3) : Vec3 := ⟨m.r0.x, m.r1.x, m.r2.x⟩

def col1 (m : Mat3) : Vec3 := ⟨m.r0.y, m.r1.y, m.r2.y⟩

def col2 (m : Mat3) : Vec3 := ⟨m.r0.z, m.r1.z, m.r2.z⟩

/-- Matrix-vector product: row i of the result is `dot(row_i, v)`. -/
def matVec (m : Mat3) (v : Vec3) : Vec3 :=
  ⟨m.r0.dot v, m.r1.dot v, m.r2.dot v⟩

theorem matVec_id (v : Vec3) : matVec idMat v = v := by
  simp [matVec, idMat, Vec3.dot]

end Mat3

/-- Modelled from the spec: `matrixMultiplication` (imported from
`coordination_geometry_utils`, not part of the source under verification) is
the ordinary 3×3 matrix product. -/
def matrixMultiplication (a b : Mat3) : Mat3 :=
  ⟨⟨a.r0.dot b.col0, a.r0.dot b.col1, a.r0.dot b.col2⟩,
   ⟨a.r1.dot b.col0, a.r1.dot b.col1, a.r1.dot b.col2⟩,
   ⟨a.r2.dot b.col0, a.r2.dot b.col1, a.r2.dot b.col2⟩⟩

/-- Modelled from the spec: `vectorsToMatrix` (imported from
`coordination_geometry_utils`, not part of the source) is the outer product
`outer(aa, bb)[i][j] = aa[i]*bb[j]`, per the spec sentence
"accumulates the 3x3 outer-product sum H = Σ outer(distorted_i, reference_i)". -/
def vectorsToMatrix (aa bb : Vec3) : Mat3 :=
  ⟨aa.x • bb, aa.y • bb, aa.z • bb⟩

/-- Modelled from the spec: `rotateCoords` (imported from
`coordination_geometry_utils`, not part of the source) "rotates each distorted
point by R": it applies the matrix to every point of the list. -/
def rotateCoords (points : List Vec3) (rot : Mat3) : List Vec3 :=
  points.map (fun p => rot.matVec p)

/-- `np.allclose` on a pair of 3-vectors with numpy's default tolerances
`rtol = 1e-5`, `atol = 1e-8`: every component satisfies
`|a - b| ≤ atol + rtol * |b|`. -/
def npAllclose (a b : Vec3) : Bool :=
  (|a.x - b.x| ≤ 1/100000000 + (1/100000) * |b.x|) &&
  (|a.y - b.y| ≤ 1/100000000 + (1/100000) * |b.y|) &&
  (|a.z - b.z| ≤ 1/100000000 + (1/100000) * |b.z|)

theorem npAllclose_self (a : Vec3) : npAllclose a a = true := by
  simp only [npAllclose, sub_self, abs_zero, Bool.and_eq_true, decide_eq_true_eq]
  refine ⟨⟨?_, ?_⟩, ?_⟩ <;> positivity

/-- The exactness shortcut of `find_rotation` (source lines 241-245): Python
iterates over the distorted points and breaks at the first pair that is not
`np.allclose`; the result is "all corresponding pairs are close". -/
def isexactCheck (points_distorted points_perfect : List Vec3) : Bool :=
  (points_distorted.zip points_perfect).all (fun q => npAllclose q.1 q.2)

/-- The abstracted `numpy.linalg.svd`, returning `(U, S, Vt)` as the source
destructures it (`[U, S, Vt] = svd(H)`). -/
abbrev SvdFun := Mat3 → Mat3 × Vec3 × Mat3

/-- Translation of `find_rotation` (source lines 232-254): if every
corresponding pair of points is `np.allclose`, return the identity; otherwise
accumulate `H = Σ vectorsToMatrix(distorted_i, perfect_i)`, factor `H` with
`svd` and return `transpose(Vt) · transpose(U)`. -/
def find_rotation (svd : SvdFun) (points_distorted points_perfect : List Vec3) : Mat3 :=
  if isexactCheck points_distorted points_perfect then Mat3.idMat
  else
    let H := ((points_distorted.zip points_perfect).map
      (fun q => vectorsToMatrix q.1 q.2)).foldl Mat3.addM Mat3.zeroMat
    let res := svd H
    matrixMultiplication (Mat3.transposeM res.2.2) (Mat3.transposeM res.1)

/-- Translation of `find_scaling_factor` (source lines 256-269): rotate the
distorted points, then `scale = Σ rotated_i·perfect_i / Σ rotated_i·rotated_i`;
returns the scale together with the rotated points.  The Python loop
`enumerate(rotated_coords)` indexes `points_perfect[ii]`, which presupposes
`len(points_perfect) ≥ len(points_distorted)`; the zip below coincides with it
on equal-length inputs (the domain on which every claim quantifies). -/
def find_scaling_factor (points_distorted points_perfect : List Vec3) (rot : Mat3) :
    ℚ × List Vec3 :=
  let rotated_coords := rotateCoords points_distorted rot
  let num := ((rotated_coords.zip points_perfect).map (fun q => q.1.dot q.2)).sum
  let denom := (rotated_coords.map (fun rc => rc.dot rc)).sum
  (num / denom, rotated_coords)

/-- Translation of `symmetry_measure` (source lines 202-230): one point gives
0.0 by definition; otherwise find the optimal rotation and scaling and return
`num / denom * 100` where `num = Σ |perfect_i - scale·rotated_i|²` and
`denom = Σ |perfect_i|²`.  The Python loop runs over `enumerate(points_perfect)`
and indexes `rotated_coords[ip]` (presupposing `len(distorted) ≥ len(perfect)`);
the zip coincides with it on equal-length inputs. -/
def symmetry_measure (svd : SvdFun) (points_distorted points_perfect : List Vec3) : ℚ :=
  if points_distorted.length = 1 then 0
  else
    let rot := find_rotation svd points_distorted points_perfect
    let sf := find_scaling_factor points_distorted points_perfect rot
    let num := ((points_perfect.zip sf.2).map
      (fun q => (q.1 - sf.1 • q.2).normSq)).sum
    let denom := (points_perfect.map (fun pp => pp.normSq)).sum
    num / denom * 100

/-- Sum of the squared norms of a point list (`Σ|reference_i|²`). -/
def sumSq (points : List Vec3) : ℚ := (points.map (fun pp => pp.normSq)).sum

theorem sumSq_nonneg (points : List Vec3) : 0 ≤ sumSq points := by
  unfold sumSq
  induction points with
  | nil => simp
  | cons a t ih =>
      simp only [List.map_cons, List.sum_cons]
      have := Vec3.normSq_nonneg a
      linarith

/-- Spec-side formula for the continuous symmetry measure, written from the
spec's words for the refinement comparison of claim C1: "N=1 ⇒ 0 by
definition.  Else: R = optimalRotation(...), (s, rotated) = optimalScale(...);
CSM = 100 · Σ|reference_i − s·rotated_i|² / Σ|reference_i|²", with the sums
written positionally over the index range of the reference list. -/
def continuousSymmetryMeasureSpec (svd : SvdFun)
    (distorted reference : List Vec3) : ℚ :=
  if reference.length = 1 then 0
  else
    let R := find_rotation svd distorted reference
    let sr := find_scaling_factor distorted reference R
    let s := sr.1
    let rotated := sr.2
    100 * (((List.range reference.length).map
        (fun i => (reference.getD i Vec3.zero - s • rotated.getD i Vec3.zero).normSq)).sum)
      / (((List.range reference.length).map
        (fun i => (reference.getD i Vec3.zero).normSq)).sum)

/-- Positional sums over `range l.length` with `getD` agree with zip-based
sums when the two lists have equal length. -/
theorem rangeSum_eq_zipSum (f : Vec3 → Vec3 → ℚ) :
    ∀ (p rc : List Vec3), p.length = rc.length →
      ((List.range p.length).map
        (fun i => f (p.getD i Vec3.zero) (rc.getD i Vec3.zero))).sum
      = ((p.zip rc).map (fun q => f q.1 q.2)).sum := by
  intro p
  induction p with
  | nil => intro rc _; simp
  | cons a t ih =>
      intro rc h
      cases rc with
      | nil => simp at h
      | cons b tb =>
          have ht : t.length = tb.length := by simpa using h
          have hrec := ih tb ht
          simpa [List.range_succ_eq_map, List.map_map, Function.comp_def, List.getD_cons_succ] using hrec

theorem rangeSum_eq_mapSum (g : Vec3 → ℚ) :
    ∀ (p : List Vec3),
      ((List.range p.length).map (fun i => g (p.getD i Vec3.zero))).sum
      = (p.map g).sum := by
  intro p
  induction p with
  | nil => simp
  | cons a t ih =>
      simpa [List.range_succ_eq_map, List.map_map, Function.comp_def, List.getD_cons_succ] using ih

theorem rotateCoords_length (points : List Vec3) (rot : Mat3) :
    (rotateCoords points rot).length = points.length := by
  simp [rotateCoords]

theorem rotateCoords_id (points : List Vec3) :
    rotateCoords points Mat3.idMat = points := by
  simp [rotateCoords, Mat3.matVec_id]

theorem isexactCheck_self (X : List Vec3) : isexactCheck X X = true := by
  unfold isexactCheck
  induction X with
  | nil => simp
  | cons a t ih => simpa [npAllclose_self a] using ih

theorem zipSelf_map (f : Vec3 → Vec3 → ℚ) :
    ∀ X : List Vec3, (X.zip X).map (fun q => f q.1 q.2) = X.map (fun x => f x x) := by
  intro X
  induction X with
  | nil => rfl
  | cons a t ih => simpa using ih

theorem dot_self_eq_normSq (a : Vec3) : a.dot a = a.normSq := rfl

/-- claim C1: for equal-length point lists, `symmetry_measure` returns 0 when
the lists have exactly one point and otherwise returns
`100 · Σ|reference_i − s·rotated_i|² / Σ|reference_i|²`, where the rotation is
the `find_rotation` result and the scale is the `find_scaling_factor` result
for that rotation. -/
theorem sumRange_sub_smul (s : ℚ) (p rc : List Vec3) (h : p.length = rc.length) :
    ((List.range p.length).map
      (fun i => (p.getD i Vec3.zero - s • rc.getD i Vec3.zero).normSq)).sum
    = ((p.zip rc).map (fun q => (q.1 - s • q.2).normSq)).sum :=
  rangeSum_eq_zipSum (fun a b => (a - s • b).normSq) p rc h

theorem sumRange_normSq (p : List Vec3) :
    ((List.range p.length).map (fun i => (p.getD i Vec3.zero).normSq)).sum
    = (p.map (fun pp => pp.normSq)).sum :=
  rangeSum_eq_mapSum (fun a => a.normSq) p

theorem claim_C1 (svd : SvdFun) (points_distorted points_perfect : List Vec3)
    (hlen : points_distorted.length = points_perfect.length) :
    symmetry_measure svd points_distorted points_perfect
      = continuousSymmetryMeasureSpec svd points_distorted points_perfect := by
  by_cases h1 : points_perfect.length = 1
  · have h1d : points_distorted.length = 1 := by rw [hlen]; exact h1
    simp [symmetry_measure, continuousSymmetryMeasureSpec, h1, h1d]
  · have h1d : ¬points_distorted.length = 1 := by rw [hlen]; exact h1
    have hrc : points_perfect.length
        = (find_scaling_factor points_distorted points_perfect
            (find_rotation svd points_distorted points_perfect)).2.length := by
      simp [find_scaling_factor, rotateCoords_length, hlen]
    simp only [symmetry_measure, continuousSymmetryMeasureSpec, if_neg h1, if_neg h1d]
    rw [sumRange_sub_smul _ _ _ hrc, sumRange_normSq]
    rw [div_mul_eq_mul_div, mul_comm]

def svdTriv : SvdFun := fun _ => (Mat3.idMat, Vec3.zero, Mat3.idMat)

def demoD : List Vec3 := [⟨1, 0, 0⟩, ⟨0, 1, 0⟩]

def demoP : List Vec3 := [⟨0, 0, 1⟩, ⟨1, 1, 0⟩]

/-- Witness for claim C1 at a concrete equal-length input. -/
theorem claim_C1_witness :
    demoD.length = demoP.length ∧
      symmetry_measure svdTriv demoD demoP
        = continuousSymmetryMeasureSpec svdTriv demoD demoP :=
  ⟨rfl, claim_C1 svdTriv demoD demoP rfl⟩

/-- claim C2, first part as a standalone lemma: the measure of a non-degenerate
point list against itself is 0 (the exactness shortcut gives the identity
rotation, the scale is `sumSq X / sumSq X = 1`, and the numerator vanishes). -/
theorem symmetry_measure_self (svd : SvdFun) (X : List Vec3)
    (hX : 0 < sumSq X) : symmetry_measure svd X X = 0 := by
  by_cases h1 : X.length = 1
  · simp [symmetry_measure, h1]
  · have hrot : find_rotation svd X X = Mat3.idMat := by
      unfold find_rotation
      rw [if_pos (isexactCheck_self X)]
    have hsf : find_scaling_factor X X Mat3.idMat = (1, X) := by
      simp only [find_scaling_factor, rotateCoords_id, Prod.mk.injEq, and_true]
      rw [zipSelf_map (fun a b => a.dot b)]
      exact div_self (by
        have : (X.map (fun x => x.dot x)).sum = sumSq X := by
          unfold sumSq
          simp [dot_self_eq_normSq]
        rw [this]
        exact ne_of_gt hX)
    have hzero : ∀ x : Vec3, (x - (1:ℚ) • x).normSq = 0 := by
      intro x
      rw [Vec3.one_smul_eq, Vec3.sub_self_eq_zero, Vec3.normSq_zero_val]
    simp only [symmetry_measure, if_neg h1, hrot, hsf]
    rw [zipSelf_map (fun a b => (a - (1:ℚ) • b).normSq)]
    simp [hzero]

/-- claim C2: the continuous symmetry measure of a non-degenerate point list
against itself is 0, and the measure is non-negative for every equal-length
pair with a non-degenerate reference. -/
theorem claim_C2 :
    (∀ (svd : SvdFun) (X : List Vec3), 0 < sumSq X →
        symmetry_measure svd X X = 0) ∧
    (∀ (svd : SvdFun) (points_distorted points_perfect : List Vec3),
        points_distorted.length = points_perfect.length →
        0 < sumSq points_perfect →
        0 ≤ symmetry_measure svd points_distorted points_perfect) := by
  constructor
  · exact symmetry_measure_self
  · intro svd d p _hlen hp
    by_cases h1 : d.length = 1
    · simp [symmetry_measure, h1]
    · have hnum : 0 ≤ ((p.zip (find_scaling_factor d p (find_rotation svd d p)).2).map
          (fun q => (q.1 - (find_scaling_factor d p (find_rotation svd d p)).1 • q.2).normSq)).sum := by
        apply List.sum_nonneg
        intro q hq
        rcases List.mem_map.mp hq with ⟨pr, _, hpr⟩
        rw [← hpr]
        exact Vec3.normSq_nonneg _
      have hden : 0 ≤ (p.map (fun pp => pp.normSq)).sum := sumSq_nonneg p
      simp only [symmetry_measure, if_neg h1]
      have := div_nonneg hnum hden
      linarith

/-- Witness for claim C2: the self-measure of a concrete non-degenerate list
is 0, and the measure of a concrete pair with non-degenerate reference is
non-negative. -/
theorem claim_C2_witness :
    (0 < sumSq demoD ∧ symmetry_measure svdTriv demoD demoD = 0) ∧
    (demoD.length = demoP.length ∧ 0 < sumSq demoP ∧
      0 ≤ symmetry_measure svdTriv demoD demoP) :=
  ⟨⟨by norm_num [sumSq, demoD, Vec3.normSq],
    claim_C2.1 svdTriv demoD (by norm_num [sumSq, demoD, Vec3.normSq])⟩,
   ⟨rfl, by norm_num [sumSq, demoP, Vec3.normSq],
    claim_C2.2 svdTriv demoD demoP rfl (by norm_num [sumSq, demoP, Vec3.normSq])⟩⟩

/-!  numpy float64 value model for the degenerate-reference analysis (C3).

The accumulators in `symmetry_measure` (`num = 0.0; num += np.sum(...)`)
become `np.float64` scalars after the first `+=`, and numpy scalar arithmetic
does not raise under the default error state: `0/0` evaluates to nan (with a
RuntimeWarning), `x/0` to a signed infinity, and nan propagates through
`+`, `-`, `*`, `/`.  `NFloat` models this value domain; finite values stay
exact rationals.  On the degenerate path analysed here every pre-division
value is produced by exact float operations (sums and products of `0.0`),
so the exact-rational finite part is faithful. -/
inductive NFloat
  | fin (q : ℚ)
  | nan
  | inf (neg : Bool)
deriving DecidableEq, Repr

namespace NFloat

def neg : NFloat → NFloat
  | fin q => fin (-q)
  | nan => nan
  | inf s => inf (!s)

def nfAdd : NFloat → NFloat → NFloat
  | nan, _ => nan
  | _, nan => nan
  | fin a, fin b => fin (a + b)
  | inf s, fin _ => inf s
  | fin _, inf s => inf s
  | inf s, inf t => if s = t then inf s else nan

def nfSub (a b : NFloat) : NFloat := nfAdd a (neg b)

def nfMul : NFloat → NFloat → NFloat
  | nan, _ => nan
  | _, nan => nan
  | fin a, fin b => fin (a * b)
  | inf s, fin b => if b = 0 then nan else inf (xor s (decide (b < 0)))
  | fin a, inf s => if a = 0 then nan else inf (xor s (decide (a < 0)))
  | inf s, inf t => inf (xor s t)

def nfDiv : NFloat → NFloat → NFloat
  | nan, _ => nan
  | _, nan => nan
  | fin a, fin b =>
      if b = 0 then (if a = 0 then nan else inf (decide (a < 0)))
      else fin (a / b)
  | inf s, fin b => inf (xor s (decide (b < 0)))
  | fin _, inf _ => fin 0
  | inf _, inf _ => nan

/-- Sequential accumulation starting from the float `0.0`, as the source loop
does. -/
def nfSum (l : List NFloat) : NFloat := l.foldl nfAdd (fin 0)

theorem nfAdd_nan_right (x : NFloat) : nfAdd x nan = nan := by
  cases x <;> rfl

theorem nfMul_nan_left (x : NFloat) : nfMul nan x = nan := by
  cases x <;> rfl

theorem nfAdd_nan_left (x : NFloat) : nfAdd nan x = nan := by
  cases x <;> rfl

theorem foldl_nfAdd_nan (l : List NFloat) : l.foldl nfAdd nan = nan := by
  induction l with
  | nil => rfl
  | cons a t ih => simpa [nfAdd_nan_left] using ih

theorem nfSum_all_zero (l : List NFloat) (h : ∀ x ∈ l, x = fin 0) :
    nfSum l = fin 0 := by
  unfold nfSum
  induction l with
  | nil => rfl
  | cons a t ih =>
      have ha := h a (List.mem_cons_self a t)
      have hrest : ∀ x ∈ t, x = fin 0 := fun x hx => h x (List.mem_cons_of_mem a hx)
      rw [List.foldl_cons, ha]
      have : nfAdd (fin 0) (fin 0) = fin 0 := by simp [nfAdd]
      rw [this]
      exact ih hrest

theorem nfSum_head_nan (rest : List NFloat) : nfSum (nan :: rest) = nan := by
  unfold nfSum
  rw [List.foldl_cons, nfAdd_nan_right]
  exact foldl_nfAdd_nan rest

end NFloat

/-- A 3-component vector over the numpy float64 value model. -/
structure NVec3 where
  x : NFloat
  y : NFloat
  z : NFloat
deriving DecidableEq, Repr

/-- `scaling_factor * rotated_coords[ip]`: scalar times a finite vector. -/
def nvSmul (s : NFloat) (v : Vec3) : NVec3 :=
  ⟨NFloat.nfMul s (.fin v.x), NFloat.nfMul s (.fin v.y), NFloat.nfMul s (.fin v.z)⟩

/-- `pp - rotated_coords[ip]` with finite `pp`. -/
def nvSubFin (p : Vec3) (w : NVec3) : NVec3 :=
  ⟨NFloat.nfSub (.fin p.x) w.x, NFloat.nfSub (.fin p.y) w.y, NFloat.nfSub (.fin p.z) w.z⟩

/-- `np.sum(diff * diff)` over the numpy value model. -/
def nvNormSq (w : NVec3) : NFloat :=
  NFloat.nfAdd (NFloat.nfAdd (NFloat.nfMul w.x w.x) (NFloat.nfMul w.y w.y))
    (NFloat.nfMul w.z w.z)

/-- Translation of `find_scaling_factor` (source lines 256-269) over the numpy
float64 value model: identical to `find_scaling_factor` except that the final
division carries numpy's 0/0 = nan semantics.  All pre-division values are
finite, so they are computed in `ℚ`. -/
def find_scaling_factorF (points_distorted points_perfect : List Vec3) (rot : Mat3) :
    NFloat × List Vec3 :=
  let rotated_coords := rotateCoords points_distorted rot
  let num := ((rotated_coords.zip points_perfect).map (fun q => q.1.dot q.2)).sum
  let denom := (rotated_coords.map (fun rc => rc.dot rc)).sum
  (NFloat.nfDiv (.fin num) (.fin denom), rotated_coords)

/-- Translation of `symmetry_measure` (source lines 202-230) over the numpy
float64 value model: the scale may be nan, the numerator accumulates through
numpy scalars, and the final `num / denom * 100.0` carries numpy division
semantics.  This function is total: no statement on this code path raises a
Python exception (numpy scalar arithmetic warns instead of raising under the
default error state). -/
def symmetry_measureF (svd : SvdFun) (points_distorted points_perfect : List Vec3) :
    NFloat :=
  if points_distorted.length = 1 then .fin 0
  else
    let rot := find_rotation svd points_distorted points_perfect
    let sf := find_scaling_factorF points_distorted points_perfect rot
    let num := NFloat.nfSum ((points_perfect.zip sf.2).map
      (fun q => nvNormSq (nvSubFin q.1 (nvSmul sf.1 q.2))))
    let denom := (points_perfect.map (fun pp => pp.normSq)).sum
    NFloat.nfMul (NFloat.nfDiv num (.fin denom)) (.fin 100)

theorem sumSq_eq_zero_all (p : List Vec3) (h : sumSq p = 0) :
    ∀ v ∈ p, v = Vec3.zero := by
  induction p with
  | nil => intro v hv; cases hv
  | cons a t ih =>
      unfold sumSq at h
      simp only [List.map_cons, List.sum_cons] at h
      have ha : 0 ≤ a.normSq := Vec3.normSq_nonneg a
      have ht : 0 ≤ (t.map (fun pp => pp.normSq)).sum := sumSq_nonneg t
      have ha0 : a.normSq = 0 := by linarith
      have ht0 : sumSq t = 0 := by unfold sumSq; linarith
      intro v hv
      rcases List.mem_cons.mp hv with rfl | hvt
      · exact Vec3.normSq_eq_zero ha0
      · exact ih ht0 v hvt

theorem dot_zero_right (a : Vec3) : a.dot Vec3.zero = 0 := by
  simp [Vec3.dot, Vec3.zero]

theorem nfDiv_nan_left (x : NFloat) : NFloat.nfDiv NFloat.nan x = NFloat.nan := by
  cases x <;> rfl

theorem nvNormSq_nan_smul (pv rv : Vec3) :
    nvNormSq (nvSubFin pv (nvSmul NFloat.nan rv)) = NFloat.nan := by
  simp [nvSmul, nvSubFin, nvNormSq, NFloat.nfSub, NFloat.nfMul_nan_left,
    NFloat.nfAdd_nan_right, NFloat.neg, NFloat.nfAdd_nan_left, NFloat.nfMul]

theorem nvNormSq_zero_smul (rv : Vec3) :
    nvNormSq (nvSubFin Vec3.zero (nvSmul (NFloat.fin 0) rv)) = NFloat.fin 0 := by
  simp [nvSmul, nvSubFin, nvNormSq, NFloat.nfSub, NFloat.neg, NFloat.nfMul,
    NFloat.nfAdd, Vec3.zero]

/-- General degenerate-reference behaviour: with more than one point and all
reference points at the centering origin, `symmetry_measure` completes and
returns nan (the final division is numpy-float 0/0, or nan/0 when the rotated
distorted points also have zero norm). -/
theorem symmetry_measureF_degenerate (svd : SvdFun) (d p : List Vec3)
    (hlen : d.length = p.length) (hp1 : 1 < p.length) (hp0 : sumSq p = 0) :
    symmetry_measureF svd d p = NFloat.nan := by
  have hall : ∀ v ∈ p, v = Vec3.zero := sumSq_eq_zero_all p hp0
  have h1 : ¬d.length = 1 := by rw [hlen]; omega
  have hden : (p.map (fun pp => pp.normSq)).sum = 0 := hp0
  simp only [symmetry_measureF, find_scaling_factorF, if_neg h1]
  set rc := rotateCoords d (find_rotation svd d p) with hrcdef
  have hrclen : rc.length = p.length := by
    rw [hrcdef, rotateCoords_length, hlen]
  have hnum : ((rc.zip p).map (fun q => q.1.dot q.2)).sum = 0 := by
    apply List.sum_eq_zero
    intro x hx
    rcases List.mem_map.mp hx with ⟨q, hq, hqx⟩
    have hq2 : q.2 ∈ p := (List.of_mem_zip hq).2
    rw [← hqx, hall q.2 hq2, dot_zero_right]
  rw [hnum, hden]
  set D := (rc.map (fun r => r.dot r)).sum with hDdef
  by_cases hD : D = 0
  · have hs : NFloat.nfDiv (.fin 0) (.fin D) = NFloat.nan := by
      simp [NFloat.nfDiv, hD]
    rw [hs]
    have hzipnonempty : p.zip rc ≠ [] := by
      have : (p.zip rc).length = p.length := by
        rw [List.length_zip, hrclen, min_self]
      intro hcon
      rw [hcon] at this
      simp at this
      omega
    cases hzl : p.zip rc with
    | nil => exact absurd hzl hzipnonempty
    | cons q rest =>
        simp only [List.map_cons, nvNormSq_nan_smul]
        rw [NFloat.nfSum_head_nan]
        rw [nfDiv_nan_left]
        rfl
  · have hs : NFloat.nfDiv (.fin 0) (.fin D) = NFloat.fin 0 := by
      simp [NFloat.nfDiv, hD]
    rw [hs]
    have hzero : NFloat.nfSum ((p.zip rc).map
        (fun q => nvNormSq (nvSubFin q.1 (nvSmul (NFloat.fin 0) q.2)))) = NFloat.fin 0 := by
      apply NFloat.nfSum_all_zero
      intro x hx
      rcases List.mem_map.mp hx with ⟨q, hq, hqx⟩
      have hq1 : q.1 ∈ p := (List.of_mem_zip hq).1
      rw [← hqx, hall q.1 hq1, nvNormSq_zero_smul]
    rw [hzero]
    have : NFloat.nfDiv (.fin 0) (.fin 0) = NFloat.nan := by simp [NFloat.nfDiv]
    rw [this]
    rfl

/-- claim C3 (amended): for every reference point list with more than one
point whose squared norms sum to zero, the continuous symmetry measure
operation does not raise an ArithmeticError; numpy float64 semantics deliver
nan for the 0/0 division(s) and the operation returns nan.  (The accumulators
are np.float64 scalars after the first `+=`, and numpy scalar division by zero
warns instead of raising under the default error state.) -/
theorem claim_C3 (svd : SvdFun) (points_distorted points_perfect : List Vec3)
    (hlen : points_distorted.length = points_perfect.length)
    (hp1 : 1 < points_perfect.length) (hp0 : sumSq points_perfect = 0) :
    symmetry_measureF svd points_distorted points_perfect = NFloat.nan :=
  symmetry_measureF_degenerate svd points_distorted points_perfect hlen hp1 hp0

def zeros2 : List Vec3 := [Vec3.zero, Vec3.zero]

def zeros3 : List Vec3 := [Vec3.zero, Vec3.zero, Vec3.zero]

/-- Counterexample to claim C3 as stated: on a concrete degenerate reference
(two points, all at the centering origin) the operation completes normally and
returns a value (numpy nan) — it does not fail with an ArithmeticError.  The
embedding of this code path is a total function because no operation on it can
raise: the division is numpy-scalar division, which produces nan/inf and a
RuntimeWarning rather than an exception. -/
theorem claim_C3_counterexample :
    symmetry_measureF svdTriv zeros2 zeros2 = NFloat.nan :=
  symmetry_measureF_degenerate svdTriv zeros2 zeros2 rfl (by simp [zeros2])
    (by simp [zeros2, sumSq, Vec3.normSq_zero_val])

/-- Witness for the amended claim C3 at a concrete three-point degenerate
reference. -/
theorem claim_C3_witness :
    zeros3.length = zeros3.length ∧ 1 < zeros3.length ∧ sumSq zeros3 = 0 ∧
      symmetry_measureF svdTriv zeros3 zeros3 = NFloat.nan :=
  ⟨rfl, by simp [zeros3], by simp [zeros3, sumSq, Vec3.normSq_zero_val],
   claim_C3 svdTriv zeros3 zeros3 rfl (by simp [zeros3])
     (by simp [zeros3, sumSq, Vec3.normSq_zero_val])⟩

/-! PointSetGeometry: the `AbstractGeometry` constructor (source lines 51-127). -/

/-- Python exception classes relevant to the modelled code. -/
inductive PyErr
  | valueError
  | typeError
  | attributeError
deriving DecidableEq, Repr

inductive CenteringType
  | standard
  | central_site
  | centroid
deriving DecidableEq, Repr

/-- `total = np.zeros(3, np.float); for pp in bare_coords: total += pp`. -/
def vsum (l : List Vec3) : Vec3 := l.foldl (fun a b => a + b) Vec3.zero

/-- Componentwise division of a vector by a scalar (`total / np.float(n)`). -/
def Vec3.divQ (v : Vec3) (q : ℚ) : Vec3 := ⟨v.x / q, v.y / q, v.z / q⟩

/-- The fields of a constructed `AbstractGeometry` used by the matching engine:
the chosen centre, the centred neighbor coordinates `_coords` (line 122-124),
the centred central site (line 125) and the `_points_wocs_ctwocc` view
(line 79, neighbors minus the centroid computed without the central site). -/
structure AbstractGeometryData where
  centre : Vec3
  coords : List Vec3
  central_site : Vec3
  points_wocs_ctwocc : List Vec3
deriving DecidableEq, Repr

/-- Translation of `AbstractGeometry.__init__` (source lines 55-127).

When `central_site is None` the preprocessing at lines 66-79 runs before any
validation: `self.bare_centre = np.array(None)` succeeds (a 0-d object array),
but `np.mean(self.bare_points_with_centre, axis=0)` (line 72) and
`pp - self.bare_centre` (line 74) perform elementwise arithmetic between
floats and `None`, which raises `TypeError` — for every centering type.
Consequently the `raise ValueError(... central site should be given ...)`
branches at lines 89-90, 97-98, 107-108 and 115-116 are unreachable dead code,
and the `none` case of this translation returns `typeError`.

For an empty `bare_coords` with centroid centering, numpy produces a nan
vector without raising; this exact-rational model divides by zero instead
(yielding the zero vector).  No claim quantifies over that case. -/
def abstractGeometryInit (central_site : Option Vec3) (bare_coords : List Vec3)
    (centering_type : CenteringType) (include_central_site_in_centroid : Bool) :
    Except PyErr AbstractGeometryData :=
  match central_site with
  | none => .error .typeError
  | some c =>
      let n : ℚ := bare_coords.length
      let centroid_without := Vec3.divQ (vsum bare_coords) n
      let centreE : Except PyErr Vec3 :=
        match centering_type with
        | .standard =>
            if bare_coords.length < 5 then
              if include_central_site_in_centroid then .error .valueError
              else .ok c
            else
              let total := vsum bare_coords
              if include_central_site_in_centroid then .ok (Vec3.divQ (total + c) (n + 1))
              else .ok (Vec3.divQ total n)
        | .central_site =>
            if include_central_site_in_centroid then .error .valueError
            else .ok c
        | .centroid =>
            let total := vsum bare_coords
            if include_central_site_in_centroid then .ok (Vec3.divQ (total + c) (n + 1))
            else .ok (Vec3.divQ total n)
      match centreE with
      | .error e => .error e
      | .ok centre =>
          .ok { centre := centre
                coords := bare_coords.map (fun pp => pp - centre)
                central_site := c - centre
                points_wocs_ctwocc := bare_coords.map (fun pp => pp - centroid_without) }

/-- Standard mode, fewer than 5 neighbors, no centroid inclusion: the chosen
centre is the central site (source lines 84-91). -/
theorem abstractGeometryInit_standard_small (c : Vec3) (coords : List Vec3)
    (h5 : coords.length < 5) :
    (abstractGeometryInit (some c) coords .standard false).map
      AbstractGeometryData.centre = .ok c := by
  simp [abstractGeometryInit, h5, Except.map]

/-- Standard mode, 5 or more neighbors: the chosen centre is the neighbor
centroid, including the central site iff requested (source lines 92-102). -/
theorem abstractGeometryInit_standard_large (c : Vec3) (coords : List Vec3)
    (h5 : ¬coords.length < 5) :
    (abstractGeometryInit (some c) coords .standard false).map
      AbstractGeometryData.centre = .ok (Vec3.divQ (vsum coords) (coords.length : ℚ)) ∧
    (abstractGeometryInit (some c) coords .standard true).map
      AbstractGeometryData.centre
        = .ok (Vec3.divQ (vsum coords + c) ((coords.length : ℚ) + 1)) := by
  constructor
  · simp [abstractGeometryInit, h5, Except.map]
  · simp [abstractGeometryInit, h5, Except.map]

/-- The two include-central-site conflicts do raise ValueError as the claim
says (source lines 86-88 and 104-106). -/
theorem abstractGeometryInit_include_conflict (c : Vec3) (coords : List Vec3)
    (h5 : coords.length < 5) :
    abstractGeometryInit (some c) coords .standard true = .error .valueError ∧
    abstractGeometryInit (some c) coords .central_site true = .error .valueError := by
  constructor
  · simp [abstractGeometryInit, h5]
  · simp [abstractGeometryInit]

/-- claim C7 (code bug exhibit): when central-site centering is required but
no central point is supplied, the constructor does not fail with the
documented validation error (`ValueError`, raised at the source's own lines
107-108); it fails earlier with a `TypeError` in the centroid/offset
preprocessing (lines 72-74), which operates on `np.array(None)`.  The
validation raise is unreachable. -/
theorem claim_C7 :
    abstractGeometryInit none [⟨1, 0, 0⟩] .central_site false = .error .typeError ∧
    (Except.error PyErr.typeError : Except PyErr AbstractGeometryData)
      ≠ .error .valueError := by
  exact ⟨rfl, by simp⟩

/-! The permutation-matching engine: explicit permutations, separation-plane
search and random fallback (source lines 677-1037). -/

/-- A neighbor-index permutation (a Python list/tuple of indices). -/
abbrev Perm := List ℕ

/-- A Python dict from index to index, as an association list in assignment
order; later assignments overwrite earlier ones. -/
abbrev IdxMap := List (ℕ × ℕ)

/-- Dict lookup: the value of the latest assignment to the key. -/
def dictGet (m : IdxMap) (k : ℕ) : Option ℕ := m.reverse.lookup k

/-- The map-building loop shared verbatim by the three strategies (source
lines 820-827, 890-897 and 1025-1031):
`for i, v in enumerate(perm): perfect2local[i] = v; local2perfect[v] = i`.
Returns `(perfect2local_map, local2perfect_map)`. -/
def permMaps (perm : Perm) : IdxMap × IdxMap :=
  (perm.enum.map (fun q => (q.1, q.2)), perm.enum.map (fun q => (q.2, q.1)))

/-- `points_wocs_ctwocc(permutation=pp)` and friends: reorder a point list by
a permutation (`[points[ii] for ii in pp]`).  Python raises IndexError on an
out-of-range index; the embedding totalizes with a default, and every theorem
about values assumes valid permutations. -/
def pointsApplyPerm (points : List Vec3) (perm : Perm) : List Vec3 :=
  perm.map (fun ii => points.getD ii Vec3.zero)

/-- Modelled from the spec: the algorithm-type tag constants imported from
`coordination_geometries` (not part of the source); only their identity and
distinctness matter. -/
def EXPLICIT_PERMUTATIONS : String := "EXPLICIT_PERMUTATIONS"

/-- Modelled from the spec: see `EXPLICIT_PERMUTATIONS`. -/
def SEPARATION_PLANE : String := "SEPARATION_PLANE"

/-- The separation-plane algorithm descriptor (the fields of the catalog's
SeparationPlane object that the source reads).  `safe_separation_permutations`
is a catalog method called with the descriptor's own ordering flags (source
lines 966-968); it is modelled as the resulting list. -/
structure SepPlaneAlgo where
  minimum_number_of_points : ℕ
  maximum_number_of_points : ℕ
  plane_points : List ℕ
  point_groups : List ℕ × List ℕ
  ordered_plane : Bool
  ordered_point_groups : Bool × Bool
  permutations : List Perm
  safe_separation_permutations : List Perm
  argsorted_ref_separation_perm : Perm

/-- A `MatchingAlgorithm` descriptor: the tagged variant of the data model
(spec §3).  `other` covers any algorithm type the matcher does not recognize. -/
inductive MatchingAlgo
  | explicit_permutations (permutations : List Perm)
  | separation_plane (sp : SepPlaneAlgo)
  | other (algorithm_type : String)

/-- The `algorithm_type` attribute the dispatcher compares against the two
recognized constants. -/
def MatchingAlgo.algorithm_type : MatchingAlgo → String
  | .explicit_permutations _ => EXPLICIT_PERMUTATIONS
  | .separation_plane _ => SEPARATION_PLANE
  | .other s => s

/-- The fields of a reference `CoordinationGeometry` read by the matcher.
`ref_permutation` is a catalog method (not in the source under verification);
it canonicalizes a permutation against the geometry's equivalence classes. -/
structure CoordinationGeometry where
  mp_symbol : String
  coordination_number : ℕ
  algorithms : List MatchingAlgo
  equivalent_indices : Option (List (List ℕ))
  ref_permutation : Perm → Perm

/-- A 3-way separation (side 1, on plane, side 2) of neighbor indices. -/
abbrev Separation3 := List ℕ × List ℕ × List ℕ

/-- The geometric helpers from `coordination_geometry_utils` and the `Plane`
class, which are not part of the source under verification.  They are
abstracted as parameters over an arbitrary plane representation `P`; theorems
that need properties of them state those properties as hypotheses (modelled
from the spec: `indices_separate` classifies every neighbor index into the
3-way partition, `project_and_to2dim_ordered_indices` returns an ordering of
the positions of its input list, `sort_separation` canonically reorders a
separation, `separation_in_list` is the dedup membership test). -/
structure PlaneOps (P : Type) where
  collinear : Vec3 → Vec3 → Vec3 → ℚ → Bool
  from_3points : Vec3 → Vec3 → Vec3 → P
  from_npoints : List Vec3 → P
  indices_separate : P → List Vec3 → ℚ → Separation3
  project_and_to2dim_ordered_indices : P → List Vec3 → List ℕ
  sort_separation : Separation3 → Separation3
  separation_in_list : Separation3 → List Separation3 → Bool

/-- `DIST_TOLERANCES = [0.02, 0.05, 0.1, 0.2, 0.3]` (source line 48). -/
def DIST_TOLERANCES : List ℚ := [1/50, 1/20, 1/10, 1/5, 3/10]

/-- The result 5-tuple `(csms, permutations, algos, local2perfect_maps,
perfect2local_maps)` returned by every strategy (source lines 836, 909,
1037). -/
structure CgsmOut where
  csms : List ℚ
  perms : List Perm
  algos : List String
  local2perfect_maps : List IdxMap
  perfect2local_maps : List IdxMap
deriving DecidableEq, Repr

def CgsmOut.empty : CgsmOut := ⟨[], [], [], [], []⟩

/-- The state mutated in place by `_cg_csm_separation_plane`: the caller's
`plane_separations` list and the `tested_permutations` set (`none` models the
Python value `False`, i.e. deduplication disabled). -/
structure SepState where
  plane_separations : List Separation3
  tested_permutations : Option (List Perm)

/-- The inputs fixed for one site: the abstracted svd, geometry helpers,
injected randomness (one drawn permutation per call index, modelling
`np.random.permutation`), the plane-safe flag of the finder, and the
`self.local_geometry` views (`central_site`, `_coords`,
`_points_wocs_ctwocc`) together with the perfect points passed in. -/
structure MatchCtx (P : Type) where
  svd : SvdFun
  ops : PlaneOps P
  rand : ℕ → Perm
  plane_safe_permutations : Bool
  central_site : Vec3
  coords : List Vec3
  wocs : List Vec3
  points_perfect : List Vec3

/-- `[pp for ip, pp in enumerate(coords) if ip in group]` (source lines 942,
945, 951): the points whose index lies in a group, in index order. -/
def enumFilterMem (coords : List Vec3) (group : List ℕ) : List Vec3 :=
  (coords.enum.filter (fun q => q.1 ∈ group)).map (fun q => q.2)

/-- The ordered/unordered construction of `separation_perm` from an accepted
separation (source lines 941-965). -/
def buildSeparationPerm {P : Type} (ops : PlaneOps P) (sp : SepPlaneAlgo)
    (local_plane : P) (coords : List Vec3) (ts : Separation3) : Perm :=
  if sp.ordered_plane then
    let inp := enumFilterMem coords ts.2.1
    let sep0 :=
      if sp.ordered_point_groups.1 then
        let pp_s0 := enumFilterMem coords ts.1
        let ordind_s0 := ops.project_and_to2dim_ordered_indices local_plane pp_s0
        ordind_s0.map (fun ii => ts.1.getD ii 0)
      else ts.1
    let sep2 :=
      if sp.ordered_point_groups.2 then
        let pp_s2 := enumFilterMem coords ts.2.2
        let ordind_s2 := ops.project_and_to2dim_ordered_indices local_plane pp_s2
        ordind_s2.map (fun ii => ts.2.2.getD ii 0)
      else ts.2.2
    let ordind := ops.project_and_to2dim_ordered_indices local_plane inp
    sep0 ++ ordind.map (fun ii => ts.2.1.getD ii 0) ++ sep2
  else ts.1 ++ ts.2.1 ++ ts.2.2

/-- The permutation-scoring loop of `_cg_csm_separation_plane` (source lines
974-992): for each `sep_perm`, derive the trial permutation
`pp = [perm1[ii] for ii in argref]` with `perm1 = [separation_perm[ii] for ii
in sep_perm]`; skip it when deduplication is active (`tested_permutations` a
set and `equivalent_indices` present) and its canonical form was already
tested; otherwise record the canonical form, append `pp` and its symmetry
measure. -/
def processSepPerms {P : Type} (ctx : MatchCtx P) (cg : CoordinationGeometry)
    (sp : SepPlaneAlgo) (separation_perm : Perm) :
    List Perm → List ℚ → List Perm → Option (List Perm) →
      List ℚ × List Perm × Option (List Perm)
  | [], csms, perms, tested => (csms, perms, tested)
  | sep_perm :: rest, csms, perms, tested =>
      let perm1 := sep_perm.map (fun ii => separation_perm.getD ii 0)
      let pp := sp.argsorted_ref_separation_perm.map (fun ii => perm1.getD ii 0)
      match tested, cg.equivalent_indices with
      | some tl, some _ =>
          let tuple_ref_perm := cg.ref_permutation pp
          if tuple_ref_perm ∈ tl then
            processSepPerms ctx cg sp separation_perm rest csms perms (some tl)
          else
            processSepPerms ctx cg sp separation_perm rest
              (csms ++ [symmetry_measure ctx.svd (pointsApplyPerm ctx.wocs pp) ctx.points_perfect])
              (perms ++ [pp]) (some (tl ++ [tuple_ref_perm]))
      | tested', _ =>
          processSepPerms ctx cg sp separation_perm rest
            (csms ++ [symmetry_measure ctx.svd (pointsApplyPerm ctx.wocs pp) ctx.points_perfect])
            (perms ++ [pp]) tested'

/-- The accepted-plane tail of one tolerance iteration of
`_cg_csm_separation_plane` (source lines 932-1004): record the separation,
build `separation_perm`, choose the safe or plain permutation table, score the
non-deduplicated permutations, and return — `plane_found` is true here, so the
tolerance loop breaks; a nonempty score list yields
`(csms, perms, [algorithm_type] * len)`, an empty one yields `([], [], [])`
(the found-but-all-deduplicated case). -/
def cgCsmAccept {P : Type} (ctx : MatchCtx P) (cg : CoordinationGeometry)
    (sp : SepPlaneAlgo) (local_plane : P) (st : SepState) (ts : Separation3) :
    Option (List ℚ × List Perm × List String) × SepState :=
  let plane_separations' := st.plane_separations ++ [ts]
  let separation_perm := buildSeparationPerm ctx.ops sp local_plane ctx.coords ts
  let sep_perms := if ctx.plane_safe_permutations then sp.safe_separation_permutations
    else sp.permutations
  let r := processSepPerms ctx cg sp separation_perm sep_perms [] [] st.tested_permutations
  let st' : SepState := ⟨plane_separations', r.2.2⟩
  if 0 < r.1.length then
    (some (r.1, r.2.1, List.replicate r.2.1.length SEPARATION_PLANE), st')
  else
    (some ([], [], []), st')

/-- Translation of `_cg_csm_separation_plane` (source lines 911-1004,
`testing=False` path), as a recursion over the tolerance list.  A tolerance
iteration whose separation is a duplicate, has the wrong on-plane count, or
matches neither group size `continue`s with unchanged state; the first
iteration passing all checks processes its permutations and breaks
(`plane_found`).  `none` models the Python return `(None, None, None)`
(no plane found at any tolerance). -/
def cgCsmSeparationPlane {P : Type} (ctx : MatchCtx P) (cg : CoordinationGeometry)
    (sp : SepPlaneAlgo) (local_plane : P) :
    List ℚ → SepState → Option (List ℚ × List Perm × List String) × SepState
  | [], st => (none, st)
  | dist_tolerance :: rest, st =>
      let separation := ctx.ops.sort_separation
        (ctx.ops.indices_separate local_plane ctx.coords dist_tolerance)
      if ctx.ops.separation_in_list separation st.plane_separations then
        cgCsmSeparationPlane ctx cg sp local_plane rest st
      else if separation.2.1.length ≠ sp.plane_points.length then
        cgCsmSeparationPlane ctx cg sp local_plane rest st
      else if separation.1.length = sp.point_groups.1.length then
        cgCsmAccept ctx cg sp local_plane st separation
      else if separation.1.length = sp.point_groups.2.length then
        cgCsmAccept ctx cg sp local_plane st (separation.2.2, separation.2.1, separation.1)
      else
        cgCsmSeparationPlane ctx cg sp local_plane rest st

/-- The accumulated result lists and plane counter of
`coordination_geometry_symmetry_measures_separation_plane`
(source lines 851-859). -/
structure SearchState where
  out : CgsmOut
  sep : SepState
  nplanes : ℕ

/-- Plane construction for one combination (source lines 863-876): two points
plus the central site (skipped when collinear, tolerance 0.25), three points
(skipped when collinear), or a best-fit plane for more points.  For fewer than
two points the source raises ValueError; the catalog guarantees
`minimum_number_of_points ≥ 2`, and that arm is modelled as a skip. -/
def buildPlane {P : Type} (ops : PlaneOps P) (central_site : Vec3) (npoints : ℕ)
    (comb : List Vec3) : Option P :=
  if npoints = 2 then
    if ops.collinear (comb.getD 0 Vec3.zero) (comb.getD 1 Vec3.zero) central_site (1/4) then
      none
    else some (ops.from_3points (comb.getD 0 Vec3.zero) (comb.getD 1 Vec3.zero) central_site)
  else if npoints = 3 then
    if ops.collinear (comb.getD 0 Vec3.zero) (comb.getD 1 Vec3.zero)
        (comb.getD 2 Vec3.zero) (1/4) then
      none
    else some (ops.from_3points (comb.getD 0 Vec3.zero) (comb.getD 1 Vec3.zero)
      (comb.getD 2 Vec3.zero))
  else if 3 < npoints then some (ops.from_npoints comb)
  else none

/-- All `npoints`-combinations of the neighbor coordinates
(`itertools.combinations(self.local_geometry.coords, npoints)`, source line
862): the same combinations, possibly in a different enumeration order (no
claim depends on the order of combinations within one `npoints`). -/
def combinationsOf (npoints : ℕ) (coords : List Vec3) : List (List Vec3) :=
  List.sublistsLen npoints coords

/-- The inner combination loop at one `npoints` value (source lines 862-901):
build the trial plane (or skip), run `_cg_csm_separation_plane` with the
shared `plane_separations`/`tested_permutations` state, and on a non-`None`
result extend all five lists (maps built from each returned permutation,
lines 890-897) and count the plane. -/
def processCombinations {P : Type} (ctx : MatchCtx P) (cg : CoordinationGeometry)
    (sp : SepPlaneAlgo) (npoints : ℕ) :
    List (List Vec3) → SearchState → SearchState
  | [], st => st
  | comb :: rest, st =>
      match buildPlane ctx.ops ctx.central_site npoints comb with
      | none => processCombinations ctx cg sp npoints rest st
      | some local_plane =>
          match cgCsmSeparationPlane ctx cg sp local_plane DIST_TOLERANCES st.sep with
          | (none, sep') => processCombinations ctx cg sp npoints rest { st with sep := sep' }
          | (some (csm, perm, algo), sep') =>
              processCombinations ctx cg sp npoints rest
                { out := { csms := st.out.csms ++ csm
                           perms := st.out.perms ++ perm
                           algos := st.out.algos ++ algo
                           local2perfect_maps := st.out.local2perfect_maps
                             ++ perm.map (fun p => (permMaps p).2)
                           perfect2local_maps := st.out.perfect2local_maps
                             ++ perm.map (fun p => (permMaps p).1) }
                  sep := sep'
                  nplanes := st.nplanes + 1 }

/-- Translation of
`coordination_geometry_symmetry_measures_fallback_random` (source lines
1006-1037): score `NRANDOM` freshly drawn random permutations, tagging each
result `APPROXIMATE_FALLBACK`. -/
def fallbackRandomGo {P : Type} (ctx : MatchCtx P) :
    List ℕ → CgsmOut → CgsmOut
  | [], acc => acc
  | iperm :: rest, acc =>
      let perm := ctx.rand iperm
      fallbackRandomGo ctx rest
        { csms := acc.csms
            ++ [symmetry_measure ctx.svd (pointsApplyPerm ctx.wocs perm) ctx.points_perfect]
          perms := acc.perms ++ [perm]
          algos := acc.algos ++ ["APPROXIMATE_FALLBACK"]
          local2perfect_maps := acc.local2perfect_maps ++ [(permMaps perm).2]
          perfect2local_maps := acc.perfect2local_maps ++ [(permMaps perm).1] }

/-- See `fallbackRandomGo`; `NRANDOM` defaults to 200 at the call site inside
the separation-plane search (source lines 904-906 call it with the default). -/
def coordination_geometry_symmetry_measures_fallback_random {P : Type}
    (ctx : MatchCtx P) (NRANDOM : ℕ) : CgsmOut :=
  fallbackRandomGo ctx (List.range NRANDOM) CgsmOut.empty

/-- `range(minimum_number_of_points, min(maximum_number_of_points, 4) + 1)`
(source lines 860-861). -/
def npointsRange (sp : SepPlaneAlgo) : List ℕ :=
  List.range' sp.minimum_number_of_points
    (min sp.maximum_number_of_points 4 + 1 - sp.minimum_number_of_points)

/-- The escalating `npoints` loop of the separation-plane search (source lines
860-909): process all combinations at each `npoints`; `if nplanes > 0: break`
after each batch; if the loop ends with `nplanes == 0`, fall back to the
random sampler (with its default of 200 draws); otherwise return the
accumulated five lists.  The final `tested_permutations` state is returned for
the caller, which threads it across the geometry's algorithms. -/
def sepPlaneLoop {P : Type} (ctx : MatchCtx P) (cg : CoordinationGeometry)
    (sp : SepPlaneAlgo) : List ℕ → SearchState → CgsmOut × Option (List Perm)
  | [], st =>
      if st.nplanes = 0 then
        (coordination_geometry_symmetry_measures_fallback_random ctx 200,
          st.sep.tested_permutations)
      else (st.out, st.sep.tested_permutations)
  | npoints :: rest, st =>
      let st' := processCombinations ctx cg sp npoints (combinationsOf npoints ctx.coords) st
      if 0 < st'.nplanes then (st'.out, st'.sep.tested_permutations)
      else sepPlaneLoop ctx cg sp rest st'

/-- Translation of
`coordination_geometry_symmetry_measures_separation_plane` (source lines
838-909): fresh `plane_separations`, the caller's `tested_permutations`,
`npoints` ranging over `npointsRange`. -/
def coordination_geometry_symmetry_measures_separation_plane {P : Type}
    (ctx : MatchCtx P) (cg : CoordinationGeometry) (sp : SepPlaneAlgo)
    (tested_permutations : Option (List Perm)) : CgsmOut × Option (List Perm) :=
  sepPlaneLoop ctx cg sp (npointsRange sp) ⟨CgsmOut.empty, ⟨[], tested_permutations⟩, 0⟩

/-- The per-permutation loop of
`coordination_geometry_symmetry_measures_standard` (source lines 804-836):
score each listed permutation and record it with its maps and the textual
algorithm label (`str(algo)`). -/
def cgsmStandardGo {P : Type} (ctx : MatchCtx P) (algoStr : String) :
    List Perm → CgsmOut → CgsmOut
  | [], acc => acc
  | perm :: rest, acc =>
      cgsmStandardGo ctx algoStr rest
        { csms := acc.csms
            ++ [symmetry_measure ctx.svd (pointsApplyPerm ctx.wocs perm) ctx.points_perfect]
          perms := acc.perms ++ [perm]
          algos := acc.algos ++ [algoStr]
          local2perfect_maps := acc.local2perfect_maps ++ [(permMaps perm).2]
          perfect2local_maps := acc.perfect2local_maps ++ [(permMaps perm).1] }

/-- See `cgsmStandardGo`.  The label passed for `str(algo)` is the
algorithm-type constant; its exact text is irrelevant to every claim. -/
def coordination_geometry_symmetry_measures_standard {P : Type} (ctx : MatchCtx P)
    (algo_permutations : List Perm) : CgsmOut :=
  cgsmStandardGo ctx EXPLICIT_PERMUTATIONS algo_permutations CgsmOut.empty

/-- The dispatcher loop of `coordination_geometry_symmetry_measures` (source
lines 755-776): the first `EXPLICIT_PERMUTATIONS` algorithm returns the
standard result directly (discarding any accumulation); each
`SEPARATION_PLANE` algorithm extends the five lists and threads the
`tested_permutations` set; any other algorithm type matches neither branch and
is silently skipped. -/
def cgsmGo {P : Type} (ctx : MatchCtx P) (cg : CoordinationGeometry) :
    List MatchingAlgo → Option (List Perm) → CgsmOut → CgsmOut
  | [], _, acc => acc
  | .explicit_permutations ps :: _, _, _ =>
      coordination_geometry_symmetry_measures_standard ctx ps
  | .separation_plane sp :: rest, tested, acc =>
      let r := coordination_geometry_symmetry_measures_separation_plane ctx cg sp tested
      cgsmGo ctx cg rest r.2
        { csms := acc.csms ++ r.1.csms
          perms := acc.perms ++ r.1.perms
          algos := acc.algos ++ r.1.algos
          local2perfect_maps := acc.local2perfect_maps ++ r.1.local2perfect_maps
          perfect2local_maps := acc.perfect2local_maps ++ r.1.perfect2local_maps }
  | .other _ :: rest, tested, acc => cgsmGo ctx cg rest tested acc

/-- Translation of `coordination_geometry_symmetry_measures` (source lines
741-776) without the `permutations_safe_override` branch: `tested_permutations
= set() if tested_permutations else False`, then the dispatcher loop. -/
def coordination_geometry_symmetry_measures_pure {P : Type} (ctx : MatchCtx P)
    (cg : CoordinationGeometry) (tested_permutations_flag : Bool) : CgsmOut :=
  cgsmGo ctx cg cg.algorithms
    (if tested_permutations_flag then some [] else none) CgsmOut.empty

/-- Translation of `coordination_geometry_symmetry_measures` (source lines
741-776) including the `permutations_safe_override` branch: that branch calls
`coordination_geometry_symmetry_measures_safe_override`, whose loop body
(source line 800) invokes `self.symmetry_measure_newpmg`, a method that is
defined nowhere — so with the override enabled the call raises
`AttributeError` for every geometry with at least one permutation. -/
def coordination_geometry_symmetry_measures_top {P : Type} (ctx : MatchCtx P)
    (cg : CoordinationGeometry) (permutations_safe_override : Bool)
    (tested_permutations_flag : Bool) : Except PyErr CgsmOut :=
  if permutations_safe_override then .error .attributeError
  else .ok (coordination_geometry_symmetry_measures_pure ctx cg tested_permutations_flag)

/-- The entry-insertion filter of `get_coordination_symmetry_measures` (source
lines 682-702, `only_minimum=True`): a geometry's symbol gets an entry in the
per-site result mapping iff its per-geometry result list is nonempty
(`if len(result) > 0`).  The per-geometry computation is passed in. -/
def get_coordination_symmetry_measures_keys
    (cgsmOf : CoordinationGeometry → CgsmOut) :
    List CoordinationGeometry → List String
  | [] => []
  | g :: rest =>
      if 0 < (cgsmOf g).csms.length then
        g.mp_symbol :: get_coordination_symmetry_measures_keys cgsmOf rest
      else get_coordination_symmetry_measures_keys cgsmOf rest

/-! Concrete instantiations used by witnesses and closed scenario theorems. -/

/-- A concrete geometry-helper instantiation: nothing is ever collinear, every
plane classifies all indices onto side one, canonical sorting is the identity
and deduplication is list membership. -/
def trivialOps : PlaneOps Unit :=
  { collinear := fun _ _ _ _ => false
    from_3points := fun _ _ _ => ()
    from_npoints := fun _ => ()
    indices_separate := fun _ coords _ => (List.range coords.length, [], [])
    project_and_to2dim_ordered_indices := fun _ pts => List.range pts.length
    sort_separation := id
    separation_in_list := fun s l => decide (s ∈ l) }

/-- A concrete site context over `trivialOps` with two neighbors. -/
def demoCtx : MatchCtx Unit :=
  { svd := svdTriv
    ops := trivialOps
    rand := fun _ => [1, 0]
    plane_safe_permutations := false
    central_site := Vec3.zero
    coords := demoD
    wocs := demoD
    points_perfect := demoP }

/-- A geometry whose single declared algorithm type is recognized by neither
dispatcher branch. -/
def unknownAlgoCg : CoordinationGeometry :=
  { mp_symbol := "UNKNOWN:2"
    coordination_number := 2
    algorithms := [.other "SOME_NEW_ALGORITHM"]
    equivalent_indices := none
    ref_permutation := id }

/-- claim C4 (code bug exhibit): a reference polyhedron declaring only an
unrecognized algorithm type does not fail — the dispatcher loop (source lines
760-776) matches neither branch, silently returns five empty lists without
raising (although its own docstring promises `NotImplementedError` "if the
permutation_setup does not exists"), and the polyhedron is then silently
absent from the per-site result mapping (`if len(result) > 0`, line 693). -/
theorem claim_C4 :
    coordination_geometry_symmetry_measures_top demoCtx unknownAlgoCg false false
      = .ok CgsmOut.empty ∧
    get_coordination_symmetry_measures_keys
      (fun g => coordination_geometry_symmetry_measures_pure demoCtx g false)
      [unknownAlgoCg] = [] := by
  exact ⟨rfl, rfl⟩

/-- The separation-plane descriptor of the C9/C6 scenario: a single candidate
plane whose accepted separation puts both neighbors on side one. -/
def sepAlgo9 : SepPlaneAlgo :=
  { minimum_number_of_points := 2
    maximum_number_of_points := 2
    plane_points := []
    point_groups := ([8, 9], [7])
    ordered_plane := false
    ordered_point_groups := (false, false)
    permutations := [[0, 1]]
    safe_separation_permutations := []
    argsorted_ref_separation_perm := [0, 1] }

/-- The geometry of the C9 scenario: separation-plane algorithm only, with
equivalence classes declared (so deduplication is active) and identity
canonicalization. -/
def cg9 : CoordinationGeometry :=
  { mp_symbol := "T:9"
    coordination_number := 2
    algorithms := [.separation_plane sepAlgo9]
    equivalent_indices := some [[0], [1]]
    ref_permutation := id }

/-- claim C9: when a candidate plane's separation is accepted but every
derived permutation is already in the tested-permutations set, the plane still
counts as found: `_cg_csm_separation_plane` returns empty lists (not `None`),
the search counts the plane (`nplanes = 1`) and so does not fall back to
random sampling, returning five empty lists; the geometry's symbol is then
absent from the per-site mapping.  Exhibited on a concrete two-neighbor
scenario whose only derived permutation `[0, 1]` is already tested. -/
theorem claim_C9 :
    (cgCsmSeparationPlane demoCtx cg9 sepAlgo9 () DIST_TOLERANCES
        ⟨[], some [[0, 1]]⟩
      = (some ([], [], []), ⟨[([0, 1], [], [])], some [[0, 1]]⟩)) ∧
    (coordination_geometry_symmetry_measures_separation_plane demoCtx cg9 sepAlgo9
        (some [[0, 1]])
      = (CgsmOut.empty, some [[0, 1]])) ∧
    (get_coordination_symmetry_measures_keys
      (fun g => cgsmGo demoCtx g g.algorithms (some [[0, 1]]) CgsmOut.empty)
      [cg9] = []) := by
  exact ⟨rfl, rfl, rfl⟩

/-- claim C6: the trial-plane size `npoints` ranges exactly over the integers
from `minimum_number_of_points` up to `min(maximum_number_of_points, 4)`
(first conjunct), and as soon as at least one plane was accepted while
processing an `npoints` value, the search result is independent of all larger
`npoints` values — no combination at a larger `npoints` is examined
(second conjunct: the loop on `npoints :: rest` equals the loop on
`[npoints]` alone whenever the batch at `npoints` ends with a positive plane
count, which is the `if nplanes > 0: break` of source lines 902-903). -/
theorem claim_C6 :
    (∀ (sp : SepPlaneAlgo) (np : ℕ), np ∈ npointsRange sp ↔
        sp.minimum_number_of_points ≤ np ∧ np ≤ min sp.maximum_number_of_points 4) ∧
    (∀ (P : Type) (ctx : MatchCtx P) (cg : CoordinationGeometry) (sp : SepPlaneAlgo)
        (np : ℕ) (rest : List ℕ) (st : SearchState),
        0 < (processCombinations ctx cg sp np (combinationsOf np ctx.coords) st).nplanes →
        sepPlaneLoop ctx cg sp (np :: rest) st = sepPlaneLoop ctx cg sp [np] st) := by
  constructor
  · intro sp np
    unfold npointsRange
    rw [List.mem_range'_1]
    omega
  · intro P ctx cg sp np rest st h
    simp only [sepPlaneLoop]
    rw [if_pos h, if_pos h]

/-- The entry state of the C9/C6 scenario: empty accumulators, the derived
permutation `[0, 1]` already tested. -/
def searchState9 : SearchState := ⟨CgsmOut.empty, ⟨[], some [[0, 1]]⟩, 0⟩

/-- Witness for claim C6: in the concrete scenario a plane is accepted at
`npoints = 2` (the batch's plane count is positive), and the search on
`[2, 3]` coincides with the search on `[2]` alone. -/
theorem claim_C6_witness :
    (2 ∈ npointsRange sepAlgo9 ↔
      sepAlgo9.minimum_number_of_points ≤ 2 ∧ 2 ≤ min sepAlgo9.maximum_number_of_points 4) ∧
    0 < (processCombinations demoCtx cg9 sepAlgo9 2
      (combinationsOf 2 demoCtx.coords) searchState9).nplanes ∧
    sepPlaneLoop demoCtx cg9 sepAlgo9 [2, 3] searchState9
      = sepPlaneLoop demoCtx cg9 sepAlgo9 [2] searchState9 :=
  ⟨claim_C6.1 sepAlgo9 2, by decide,
   claim_C6.2 Unit demoCtx cg9 sepAlgo9 2 [3] searchState9 (by decide)⟩

/-- In the exact-rational model the symmetry measure is non-negative for every
input: numerator and denominator are sums of squares. -/
theorem symmetry_measure_nonneg (svd : SvdFun) (d p : List Vec3) :
    0 ≤ symmetry_measure svd d p := by
  by_cases h1 : d.length = 1
  · simp [symmetry_measure, h1]
  · simp only [symmetry_measure, if_neg h1]
    apply mul_nonneg _ (by norm_num)
    apply div_nonneg
    · apply List.sum_nonneg
      intro x hx
      rcases List.mem_map.mp hx with ⟨q, _, hq⟩
      rw [← hq]
      exact Vec3.normSq_nonneg _
    · apply List.sum_nonneg
      intro x hx
      rcases List.mem_map.mp hx with ⟨q, _, hq⟩
      rw [← hq]
      exact Vec3.normSq_nonneg _

/-- Structural description of the random fallback accumulator: it appends one
scored entry per drawn index, in order, with aligned maps and the
`APPROXIMATE_FALLBACK` tag. -/
theorem fallbackRandomGo_spec {P : Type} (ctx : MatchCtx P) :
    ∀ (l : List ℕ) (acc : CgsmOut),
      (fallbackRandomGo ctx l acc).perms = acc.perms ++ l.map ctx.rand ∧
      (fallbackRandomGo ctx l acc).csms = acc.csms ++ (l.map ctx.rand).map
        (fun perm => symmetry_measure ctx.svd (pointsApplyPerm ctx.wocs perm)
          ctx.points_perfect) ∧
      (fallbackRandomGo ctx l acc).algos
        = acc.algos ++ l.map (fun _ => "APPROXIMATE_FALLBACK") ∧
      (fallbackRandomGo ctx l acc).local2perfect_maps
        = acc.local2perfect_maps ++ (l.map ctx.rand).map (fun p => (permMaps p).2) ∧
      (fallbackRandomGo ctx l acc).perfect2local_maps
        = acc.perfect2local_maps ++ (l.map ctx.rand).map (fun p => (permMaps p).1) := by
  intro l
  induction l with
  | nil => intro acc; simp [fallbackRandomGo]
  | cons a t ih =>
      intro acc
      obtain ⟨h1, h2, h3, h4, h5⟩ := ih
        { csms := acc.csms ++ [symmetry_measure ctx.svd
            (pointsApplyPerm ctx.wocs (ctx.rand a)) ctx.points_perfect]
          perms := acc.perms ++ [ctx.rand a]
          algos := acc.algos ++ ["APPROXIMATE_FALLBACK"]
          local2perfect_maps := acc.local2perfect_maps ++ [(permMaps (ctx.rand a)).2]
          perfect2local_maps := acc.perfect2local_maps ++ [(permMaps (ctx.rand a)).1] }
      refine ⟨?_, ?_, ?_, ?_, ?_⟩ <;>
        simp [fallbackRandomGo, h1, h2, h3, h4, h5]

/-- If no batch of combinations ever changes the state, the `npoints` loop
falls through to the random fallback with its default of 200 draws. -/
theorem sepPlaneLoop_fallback {P : Type} (ctx : MatchCtx P)
    (cg : CoordinationGeometry) (sp : SepPlaneAlgo) :
    ∀ (l : List ℕ) (st : SearchState),
      (∀ np ∈ l, ∀ st' : SearchState,
        processCombinations ctx cg sp np (combinationsOf np ctx.coords) st' = st') →
      st.nplanes = 0 →
      sepPlaneLoop ctx cg sp l st
        = (coordination_geometry_symmetry_measures_fallback_random ctx 200,
           st.sep.tested_permutations) := by
  intro l
  induction l with
  | nil => intro st _ h0; simp [sepPlaneLoop, h0]
  | cons np rest ih =>
      intro st hall h0
      simp only [sepPlaneLoop]
      rw [hall np (List.mem_cons_self np rest) st]
      rw [if_neg (by omega)]
      exact ih st (fun np' h' st' => hall np' (List.mem_cons_of_mem np h') st') h0

/-- claim C5: when the separation-plane search accepts no plane at any
(`npoints`, combination, tolerance), it falls back to random sampling and
returns the fallback's five lists, all of length exactly 200 (the configured
sample count), with every CSM value non-negative and every entry tagged
`APPROXIMATE_FALLBACK`.  "No valid plane at any combination" is expressed as:
processing any batch of combinations in the search range leaves the search
state unchanged (acceptance always increments the plane counter). -/
theorem claim_C5 {P : Type} (ctx : MatchCtx P) (cg : CoordinationGeometry)
    (sp : SepPlaneAlgo) (tested : Option (List Perm))
    (hnone : ∀ np ∈ npointsRange sp, ∀ st : SearchState,
      processCombinations ctx cg sp np (combinationsOf np ctx.coords) st = st) :
    (coordination_geometry_symmetry_measures_separation_plane ctx cg sp tested).1
      = coordination_geometry_symmetry_measures_fallback_random ctx 200 ∧
    (coordination_geometry_symmetry_measures_separation_plane ctx cg sp tested).1.csms.length
      = 200 ∧
    (coordination_geometry_symmetry_measures_separation_plane ctx cg sp tested).1.perms.length
      = 200 ∧
    (coordination_geometry_symmetry_measures_separation_plane ctx cg sp tested).1.algos.length
      = 200 ∧
    (coordination_geometry_symmetry_measures_separation_plane ctx cg sp
      tested).1.local2perfect_maps.length = 200 ∧
    (coordination_geometry_symmetry_measures_separation_plane ctx cg sp
      tested).1.perfect2local_maps.length = 200 ∧
    (∀ c ∈ (coordination_geometry_symmetry_measures_separation_plane ctx cg sp
      tested).1.csms, 0 ≤ c) ∧
    (∀ a ∈ (coordination_geometry_symmetry_measures_separation_plane ctx cg sp
      tested).1.algos, a = "APPROXIMATE_FALLBACK") := by
  have hmain : (coordination_geometry_symmetry_measures_separation_plane ctx cg sp tested).1
      = coordination_geometry_symmetry_measures_fallback_random ctx 200 := by
    unfold coordination_geometry_symmetry_measures_separation_plane
    rw [sepPlaneLoop_fallback ctx cg sp (npointsRange sp) _ hnone rfl]
  obtain ⟨h1, h2, h3, h4, h5⟩ :=
    fallbackRandomGo_spec ctx (List.range 200) CgsmOut.empty
  have hfb : coordination_geometry_symmetry_measures_fallback_random ctx 200
      = fallbackRandomGo ctx (List.range 200) CgsmOut.empty := rfl
  refine ⟨hmain, ?_, ?_, ?_, ?_, ?_, ?_, ?_⟩
  · rw [hmain, hfb, h2]
    simp only [CgsmOut.empty, List.nil_append, List.length_map, List.length_range]
  · rw [hmain, hfb, h1]
    simp only [CgsmOut.empty, List.nil_append, List.length_map, List.length_range]
  · rw [hmain, hfb, h3]
    simp only [CgsmOut.empty, List.nil_append, List.length_map, List.length_range]
  · rw [hmain, hfb, h4]
    simp only [CgsmOut.empty, List.nil_append, List.length_map, List.length_range]
  · rw [hmain, hfb, h5]
    simp only [CgsmOut.empty, List.nil_append, List.length_map, List.length_range]
  · rw [hmain, hfb, h2]
    intro c hc
    simp only [CgsmOut.empty, List.nil_append, List.mem_map] at hc
    rcases hc with ⟨perm, _, hperm⟩
    rw [← hperm]
    exact symmetry_measure_nonneg _ _ _
  · rw [hmain, hfb, h3]
    intro a ha
    simp only [CgsmOut.empty, List.nil_append, List.mem_map] at ha
    rcases ha with ⟨_, _, hx⟩
    exact hx.symm

/-- Geometry helpers under which every combination is rejected: everything is
collinear (so 2- and 3-point planes are skipped) and every separation counts
as already seen (so 4-point planes pass no tolerance). -/
def opsAlwaysSkip : PlaneOps Unit :=
  { collinear := fun _ _ _ _ => true
    from_3points := fun _ _ _ => ()
    from_npoints := fun _ => ()
    indices_separate := fun _ coords _ => (List.range coords.length, [], [])
    project_and_to2dim_ordered_indices := fun _ pts => List.range pts.length
    sort_separation := id
    separation_in_list := fun _ _ => true }

def skipCtx : MatchCtx Unit := { demoCtx with ops := opsAlwaysSkip }

theorem skipCtx_cgCsm_none (cg : CoordinationGeometry) (sp : SepPlaneAlgo) :
    ∀ (tols : List ℚ) (st : SepState),
      cgCsmSeparationPlane skipCtx cg sp () tols st = (none, st) := by
  intro tols
  induction tols with
  | nil => intro st; rfl
  | cons t rest ih =>
      intro st
      simp only [cgCsmSeparationPlane, skipCtx, demoCtx, opsAlwaysSkip]
      exact ih st

theorem skipCtx_process_id (cg : CoordinationGeometry) (sp : SepPlaneAlgo) (np : ℕ) :
    ∀ (combs : List (List Vec3)) (st : SearchState),
      processCombinations skipCtx cg sp np combs st = st := by
  intro combs
  induction combs with
  | nil => intro st; rfl
  | cons comb rest ih =>
      intro st
      rcases hbp : buildPlane skipCtx.ops skipCtx.central_site np comb with _ | pl
      · simp only [processCombinations, hbp]
        exact ih st
      · simp only [processCombinations, hbp,
          skipCtx_cgCsm_none cg sp DIST_TOLERANCES st.sep]
        exact ih st

def sepAlgo5 : SepPlaneAlgo :=
  { sepAlgo9 with minimum_number_of_points := 2, maximum_number_of_points := 4 }

/-- Witness for claim C5: under `opsAlwaysSkip` no combination is ever
accepted, and the search equals the 200-draw random fallback. -/
theorem claim_C5_witness :
    (∀ np ∈ npointsRange sepAlgo5, ∀ st : SearchState,
        processCombinations skipCtx cg9 sepAlgo5 np
          (combinationsOf np skipCtx.coords) st = st) ∧
    (coordination_geometry_symmetry_measures_separation_plane skipCtx cg9 sepAlgo5 none).1
      = coordination_geometry_symmetry_measures_fallback_random skipCtx 200 ∧
    (coordination_geometry_symmetry_measures_separation_plane skipCtx cg9
      sepAlgo5 none).1.csms.length = 200 :=
  have h : ∀ np ∈ npointsRange sepAlgo5, ∀ st : SearchState,
      processCombinations skipCtx cg9 sepAlgo5 np
        (combinationsOf np skipCtx.coords) st = st :=
    fun np _ st => skipCtx_process_id cg9 sepAlgo5 np _ st
  ⟨h, (claim_C5 skipCtx cg9 sepAlgo5 none h).1,
    (claim_C5 skipCtx cg9 sepAlgo5 none h).2.1⟩

/-! Validity of the abstracted geometric helpers, and the permutation
book-keeping needed for the exhaustive-dominance and index-map claims. -/

/-- The concatenation of a 3-way separation. -/
def sepMerge (s : Separation3) : List ℕ := s.1 ++ s.2.1 ++ s.2.2

/-- Properties of the real geometric helpers (modelled from the spec): a plane
classifies every neighbor index into exactly one of the three groups,
canonical sorting only rearranges a separation, and the 2D projection
ordering is an ordering of the positions of its input. -/
structure PlaneOpsValid {P : Type} (ops : PlaneOps P) : Prop where
  indices_separate_partition : ∀ (pl : P) (coords : List Vec3) (tol : ℚ),
    (sepMerge (ops.indices_separate pl coords tol)).Perm (List.range coords.length)
  sort_separation_perm : ∀ s : Separation3,
    (sepMerge (ops.sort_separation s)).Perm (sepMerge s)
  project_ordered_perm : ∀ (pl : P) (pts : List Vec3),
    (ops.project_and_to2dim_ordered_indices pl pts).Perm (List.range pts.length)

/-- Catalog invariants of a separation-plane descriptor for coordination
number `n`: its permutation tables and the argsorted reference permutation are
permutations of `0..n-1`. -/
structure SepPlaneAlgoValid (sp : SepPlaneAlgo) (n : ℕ) : Prop where
  perms_valid : ∀ q ∈ sp.permutations, q.Perm (List.range n)
  safe_perms_valid : ∀ q ∈ sp.safe_separation_permutations, q.Perm (List.range n)
  argref_valid : sp.argsorted_ref_separation_perm.Perm (List.range n)

theorem map_getD_range {α : Type} (d : α) :
    ∀ l : List α, (List.range l.length).map (fun i => l.getD i d) = l := by
  intro l
  induction l with
  | nil => rfl
  | cons a t ih =>
      simpa [List.range_succ_eq_map, List.map_map, Function.comp_def,
        List.getD_cons_succ] using ih

theorem map_getD_perm {α : Type} (l : List α) (d : α) (idx : List ℕ)
    (h : idx.Perm (List.range l.length)) :
    (idx.map (fun i => l.getD i d)).Perm l := by
  have := h.map (fun i => l.getD i d)
  rwa [map_getD_range] at this

theorem perm_length_range {idx : List ℕ} {n : ℕ} (h : idx.Perm (List.range n)) :
    idx.length = n := by
  have := h.length_eq
  simpa using this

theorem perm_append_rev3 (a b c : List ℕ) : (c ++ b ++ a).Perm (a ++ b ++ c) := by
  have h1 : ((c ++ b) ++ a).Perm (a ++ (c ++ b)) := List.perm_append_comm
  have h2 : (c ++ b).Perm (b ++ c) := List.perm_append_comm
  have h3 : (a ++ (c ++ b)).Perm (a ++ (b ++ c)) := h2.append_left a
  have h4 := h1.trans h3
  rwa [← List.append_assoc] at h4

theorem filter_fst_length {α : Type} (g : List ℕ) :
    ∀ l : List (ℕ × α),
      (l.filter (fun q => decide (q.1 ∈ g))).length
        = ((l.map Prod.fst).filter (fun i => decide (i ∈ g))).length := by
  intro l
  induction l with
  | nil => rfl
  | cons a t ih =>
      by_cases h : a.1 ∈ g
      · simp [List.filter_cons, h, ih]
      · simp [List.filter_cons, h, ih]

theorem filter_range_mem_perm (n : ℕ) (g : List ℕ) (hn : g.Nodup)
    (hsub : ∀ i ∈ g, i < n) :
    ((List.range n).filter (fun i => decide (i ∈ g))).Perm g := by
  apply (List.perm_ext_iff_of_nodup ((List.nodup_range n).filter _) hn).mpr
  intro a
  simp only [List.mem_filter, List.mem_range, decide_eq_true_eq]
  constructor
  · rintro ⟨_, h⟩; exact h
  · intro h; exact ⟨hsub a h, h⟩

theorem enumFilterMem_length (coords : List Vec3) (g : List ℕ)
    (hn : g.Nodup) (hsub : ∀ i ∈ g, i < coords.length) :
    (enumFilterMem coords g).length = g.length := by
  unfold enumFilterMem
  rw [List.length_map, filter_fst_length g coords.enum, List.enum_map_fst]
  exact (filter_range_mem_perm coords.length g hn hsub).length_eq

/-- Reordering a nodup in-range group by the projection ordering of its
member points yields a permutation of the group. -/
theorem orderedGroup_perm {P : Type} (ops : PlaneOps P) (hops : PlaneOpsValid ops)
    (pl : P) (coords : List Vec3) (g : List ℕ) (hn : g.Nodup)
    (hsub : ∀ i ∈ g, i < coords.length) :
    ((ops.project_and_to2dim_ordered_indices pl (enumFilterMem coords g)).map
      (fun ii => g.getD ii 0)).Perm g := by
  have hproj := hops.project_ordered_perm pl (enumFilterMem coords g)
  rw [enumFilterMem_length coords g hn hsub] at hproj
  exact map_getD_perm g 0 _ hproj

theorem buildSeparationPerm_perm {P : Type} (ops : PlaneOps P)
    (hops : PlaneOpsValid ops) (sp : SepPlaneAlgo) (pl : P) (coords : List Vec3)
    (ts : Separation3) (hts : (sepMerge ts).Perm (List.range coords.length)) :
    (buildSeparationPerm ops sp pl coords ts).Perm (List.range coords.length) := by
  have hnd : (sepMerge ts).Nodup := (hts.nodup_iff).mpr (List.nodup_range _)
  have hnd01 : (ts.1 ++ ts.2.1).Nodup := hnd.of_append_left
  have hnd1 : ts.1.Nodup := hnd01.of_append_left
  have hndm : ts.2.1.Nodup := hnd01.of_append_right
  have hnd2 : ts.2.2.Nodup := hnd.of_append_right
  have hmem : ∀ i ∈ sepMerge ts, i < coords.length := by
    intro i hi
    exact List.mem_range.mp (hts.mem_iff.mp hi)
  have hsub1 : ∀ i ∈ ts.1, i < coords.length := by
    intro i hi
    exact hmem i (List.mem_append.mpr (Or.inl (List.mem_append.mpr (Or.inl hi))))
  have hsubm : ∀ i ∈ ts.2.1, i < coords.length := by
    intro i hi
    exact hmem i (List.mem_append.mpr (Or.inl (List.mem_append.mpr (Or.inr hi))))
  have hsub2 : ∀ i ∈ ts.2.2, i < coords.length := by
    intro i hi
    exact hmem i (List.mem_append.mpr (Or.inr hi))
  by_cases hop : sp.ordered_plane
  · have hmid : ((ops.project_and_to2dim_ordered_indices pl
        (enumFilterMem coords ts.2.1)).map (fun ii => ts.2.1.getD ii 0)).Perm ts.2.1 :=
      orderedGroup_perm ops hops pl coords ts.2.1 hndm hsubm
    have h0 : (if sp.ordered_point_groups.1 then
        (ops.project_and_to2dim_ordered_indices pl (enumFilterMem coords ts.1)).map
          (fun ii => ts.1.getD ii 0)
        else ts.1).Perm ts.1 := by
      by_cases h : sp.ordered_point_groups.1
      · rw [if_pos h]
        exact orderedGroup_perm ops hops pl coords ts.1 hnd1 hsub1
      · rw [if_neg h]
    have h2 : (if sp.ordered_point_groups.2 then
        (ops.project_and_to2dim_ordered_indices pl (enumFilterMem coords ts.2.2)).map
          (fun ii => ts.2.2.getD ii 0)
        else ts.2.2).Perm ts.2.2 := by
      by_cases h : sp.ordered_point_groups.2
      · rw [if_pos h]
        exact orderedGroup_perm ops hops pl coords ts.2.2 hnd2 hsub2
      · rw [if_neg h]
    simp only [buildSeparationPerm, if_pos hop]
    exact ((h0.append hmid).append h2).trans hts
  · simp only [buildSeparationPerm, if_neg hop]
    exact hts

/-- The CSM score of one trial permutation, as computed by every strategy:
`symmetry_measure(points_wocs_ctwocc(permutation=pp), points_perfect)`. -/
def scoreOf {P : Type} (ctx : MatchCtx P) (pp : Perm) : ℚ :=
  symmetry_measure ctx.svd (pointsApplyPerm ctx.wocs pp) ctx.points_perfect

theorem map_scoreOf {P : Type} (ctx : MatchCtx P) (l : List Perm) :
    l.map (fun pp => symmetry_measure ctx.svd (pointsApplyPerm ctx.wocs pp)
      ctx.points_perfect) = l.map (scoreOf ctx) := rfl

/-- The permutation-scoring loop appends, after the given accumulators, one
scored entry per non-deduplicated trial permutation, and every appended trial
permutation is a permutation of `0..n-1` (given a valid separation permutation
and valid descriptor tables). -/
theorem processSepPerms_spec {P : Type} (ctx : MatchCtx P) (cg : CoordinationGeometry)
    (sp : SepPlaneAlgo) (separation_perm : Perm) (n : ℕ)
    (hsep : separation_perm.Perm (List.range n))
    (hargref : sp.argsorted_ref_separation_perm.Perm (List.range n)) :
    ∀ (l : List Perm), (∀ q ∈ l, q.Perm (List.range n)) →
      ∀ (csms : List ℚ) (perms : List Perm) (tested : Option (List Perm)),
      ∃ Δ : List Perm,
        (processSepPerms ctx cg sp separation_perm l csms perms tested).1
          = csms ++ Δ.map (scoreOf ctx) ∧
        (processSepPerms ctx cg sp separation_perm l csms perms tested).2.1
          = perms ++ Δ ∧
        ∀ pp ∈ Δ, pp.Perm (List.range n) := by
  intro l
  induction l with
  | nil =>
      intro _ csms perms tested
      refine ⟨[], ?_, ?_, ?_⟩
      · simp [processSepPerms]
      · simp [processSepPerms]
      · intro pp hpp; cases hpp
  | cons sep_perm rest ih =>
      intro hall csms perms tested
      have hsp1 : sep_perm.Perm (List.range n) := hall _ (List.mem_cons_self _ _)
      have hrest : ∀ q ∈ rest, q.Perm (List.range n) :=
        fun q hq => hall q (List.mem_cons_of_mem _ hq)
      have hlen_sep : separation_perm.length = n := perm_length_range hsep
      have hperm1 : (sep_perm.map (fun ii => separation_perm.getD ii 0)).Perm
          (List.range n) := by
        have h := map_getD_perm separation_perm 0 sep_perm (by rwa [hlen_sep])
        exact h.trans hsep
      have hlen1 : (sep_perm.map (fun ii => separation_perm.getD ii 0)).length = n :=
        perm_length_range hperm1
      have hpp : (sp.argsorted_ref_separation_perm.map
          (fun ii => (sep_perm.map (fun ii => separation_perm.getD ii 0)).getD ii 0)).Perm
          (List.range n) := by
        have h := map_getD_perm (sep_perm.map (fun ii => separation_perm.getD ii 0)) 0
          sp.argsorted_ref_separation_perm (by rwa [hlen1])
        exact h.trans hperm1
      rcases tested with _ | tl
      · obtain ⟨Δ', e1, e2, e3⟩ := ih hrest
          (csms ++ [symmetry_measure ctx.svd (pointsApplyPerm ctx.wocs
            (sp.argsorted_ref_separation_perm.map
              (fun ii => (sep_perm.map (fun ii => separation_perm.getD ii 0)).getD ii 0)))
            ctx.points_perfect])
          (perms ++ [sp.argsorted_ref_separation_perm.map
            (fun ii => (sep_perm.map (fun ii => separation_perm.getD ii 0)).getD ii 0)])
          none
        refine ⟨(sp.argsorted_ref_separation_perm.map
          (fun ii => (sep_perm.map (fun ii => separation_perm.getD ii 0)).getD ii 0)) :: Δ',
          ?_, ?_, ?_⟩
        · simp only [processSepPerms]
          rw [e1, List.append_assoc]
          rfl
        · simp only [processSepPerms]
          rw [e2, List.append_assoc]
          rfl
        · intro pp hppm
          rcases List.mem_cons.mp hppm with rfl | hmem
          · exact hpp
          · exact e3 pp hmem
      · rcases heq : cg.equivalent_indices with _ | ei
        · obtain ⟨Δ', e1, e2, e3⟩ := ih hrest
            (csms ++ [symmetry_measure ctx.svd (pointsApplyPerm ctx.wocs
              (sp.argsorted_ref_separation_perm.map
                (fun ii => (sep_perm.map (fun ii => separation_perm.getD ii 0)).getD ii 0)))
              ctx.points_perfect])
            (perms ++ [sp.argsorted_ref_separation_perm.map
              (fun ii => (sep_perm.map (fun ii => separation_perm.getD ii 0)).getD ii 0)])
            (some tl)
          refine ⟨(sp.argsorted_ref_separation_perm.map
            (fun ii => (sep_perm.map (fun ii => separation_perm.getD ii 0)).getD ii 0)) :: Δ',
            ?_, ?_, ?_⟩
          · simp only [processSepPerms, heq]
            rw [e1, List.append_assoc]
            rfl
          · simp only [processSepPerms, heq]
            rw [e2, List.append_assoc]
            rfl
          · intro pp hppm
            rcases List.mem_cons.mp hppm with rfl | hmem
            · exact hpp
            · exact e3 pp hmem
        · by_cases hmemt : cg.ref_permutation
              (sp.argsorted_ref_separation_perm.map
                (fun ii => (sep_perm.map (fun ii => separation_perm.getD ii 0)).getD ii 0)) ∈ tl
          · obtain ⟨Δ', e1, e2, e3⟩ := ih hrest csms perms (some tl)
            refine ⟨Δ', ?_, ?_, e3⟩
            · simp only [processSepPerms, heq, if_pos hmemt]
              exact e1
            · simp only [processSepPerms, heq, if_pos hmemt]
              exact e2
          · obtain ⟨Δ', e1, e2, e3⟩ := ih hrest
              (csms ++ [symmetry_measure ctx.svd (pointsApplyPerm ctx.wocs
                (sp.argsorted_ref_separation_perm.map
                  (fun ii => (sep_perm.map (fun ii => separation_perm.getD ii 0)).getD ii 0)))
                ctx.points_perfect])
              (perms ++ [sp.argsorted_ref_separation_perm.map
                (fun ii => (sep_perm.map (fun ii => separation_perm.getD ii 0)).getD ii 0)])
              (some (tl ++ [cg.ref_permutation
                (sp.argsorted_ref_separation_perm.map
                  (fun ii => (sep_perm.map (fun ii => separation_perm.getD ii 0)).getD ii 0))]))
            refine ⟨(sp.argsorted_ref_separation_perm.map
              (fun ii => (sep_perm.map (fun ii => separation_perm.getD ii 0)).getD ii 0)) :: Δ',
              ?_, ?_, ?_⟩
            · simp only [processSepPerms, heq, if_neg hmemt]
              rw [e1, List.append_assoc]
              rfl
            · simp only [processSepPerms, heq, if_neg hmemt]
              rw [e2, List.append_assoc]
              rfl
            · intro pp hppm
              rcases List.mem_cons.mp hppm with rfl | hmem
              · exact hpp
              · exact e3 pp hmem

/-- An accepted plane always produces a `some` result, whose scores are the
scores of its permutation list and whose permutations are permutations of
`0..n-1`. -/
theorem cgCsmAccept_spec {P : Type} (ctx : MatchCtx P) (cg : CoordinationGeometry)
    (sp : SepPlaneAlgo) (pl : P) (st : SepState) (ts : Separation3) (n : ℕ)
    (hops : PlaneOpsValid ctx.ops) (hsp : SepPlaneAlgoValid sp n)
    (hn : ctx.coords.length = n)
    (hts : (sepMerge ts).Perm (List.range ctx.coords.length)) :
    ∃ csms perms algos,
      (cgCsmAccept ctx cg sp pl st ts).1 = some (csms, perms, algos) ∧
      csms = perms.map (scoreOf ctx) ∧ ∀ pp ∈ perms, pp.Perm (List.range n) := by
  have hsepp : (buildSeparationPerm ctx.ops sp pl ctx.coords ts).Perm (List.range n) := by
    have h := buildSeparationPerm_perm ctx.ops hops sp pl ctx.coords ts hts
    rwa [hn] at h
  have htable : ∀ q ∈ (if ctx.plane_safe_permutations then
      sp.safe_separation_permutations else sp.permutations), q.Perm (List.range n) := by
    by_cases h : ctx.plane_safe_permutations
    · rw [if_pos h]; exact hsp.safe_perms_valid
    · rw [if_neg h]; exact hsp.perms_valid
  obtain ⟨Δ, h1, h2, h3⟩ := processSepPerms_spec ctx cg sp _ n hsepp hsp.argref_valid
    _ htable [] [] st.tested_permutations
  by_cases hlen : 0 < (processSepPerms ctx cg sp
      (buildSeparationPerm ctx.ops sp pl ctx.coords ts)
      (if ctx.plane_safe_permutations then sp.safe_separation_permutations
        else sp.permutations) [] [] st.tested_permutations).1.length
  · refine ⟨Δ.map (scoreOf ctx), Δ, List.replicate Δ.length SEPARATION_PLANE,
      ?_, rfl, h3⟩
    simp only [cgCsmAccept, if_pos hlen]
    rw [h1, h2]
    simp
  · refine ⟨[], [], [], ?_, rfl, by intro pp hpp; cases hpp⟩
    simp only [cgCsmAccept, if_neg hlen]

/-- Any `some` result of `_cg_csm_separation_plane` has scores aligned with
its permutations, all of which are permutations of `0..n-1`. -/
theorem cgCsm_spec {P : Type} (ctx : MatchCtx P) (cg : CoordinationGeometry)
    (sp : SepPlaneAlgo) (pl : P) (n : ℕ)
    (hops : PlaneOpsValid ctx.ops) (hsp : SepPlaneAlgoValid sp n)
    (hn : ctx.coords.length = n) :
    ∀ (tols : List ℚ) (st : SepState) (csms : List ℚ) (perms : List Perm)
      (algos : List String),
      (cgCsmSeparationPlane ctx cg sp pl tols st).1 = some (csms, perms, algos) →
      csms = perms.map (scoreOf ctx) ∧ ∀ pp ∈ perms, pp.Perm (List.range n) := by
  intro tols
  induction tols with
  | nil =>
      intro st csms perms algos h
      simp [cgCsmSeparationPlane] at h
  | cons t rest ih =>
      intro st csms perms algos h
      simp only [cgCsmSeparationPlane] at h
      have hts0 : (sepMerge (ctx.ops.sort_separation
          (ctx.ops.indices_separate pl ctx.coords t))).Perm
          (List.range ctx.coords.length) :=
        (hops.sort_separation_perm _).trans (hops.indices_separate_partition pl ctx.coords t)
      by_cases hc1 : ctx.ops.separation_in_list
          (ctx.ops.sort_separation (ctx.ops.indices_separate pl ctx.coords t))
          st.plane_separations = true
      · rw [if_pos hc1] at h
        exact ih st csms perms algos h
      · rw [if_neg hc1] at h
        by_cases hc2 : (ctx.ops.sort_separation
            (ctx.ops.indices_separate pl ctx.coords t)).2.1.length
            ≠ sp.plane_points.length
        · rw [if_pos hc2] at h
          exact ih st csms perms algos h
        · rw [if_neg hc2] at h
          by_cases hc3 : (ctx.ops.sort_separation
              (ctx.ops.indices_separate pl ctx.coords t)).1.length
              = sp.point_groups.1.length
          · rw [if_pos hc3] at h
            obtain ⟨c', p', a', heq, hcs, hpermv⟩ :=
              cgCsmAccept_spec ctx cg sp pl st _ n hops hsp hn hts0
            rw [heq] at h
            have h' := Option.some.inj h
            have e1 : c' = csms := congrArg Prod.fst h'
            have e2 : p' = perms := congrArg (fun q => q.2.1) h'
            subst e1
            subst e2
            exact ⟨hcs, hpermv⟩
          · rw [if_neg hc3] at h
            by_cases hc4 : (ctx.ops.sort_separation
                (ctx.ops.indices_separate pl ctx.coords t)).1.length
                = sp.point_groups.2.length
            · rw [if_pos hc4] at h
              have hts1 : (sepMerge ((ctx.ops.sort_separation
                  (ctx.ops.indices_separate pl ctx.coords t)).2.2,
                  (ctx.ops.sort_separation (ctx.ops.indices_separate pl ctx.coords t)).2.1,
                  (ctx.ops.sort_separation
                    (ctx.ops.indices_separate pl ctx.coords t)).1)).Perm
                  (List.range ctx.coords.length) := by
                exact (perm_append_rev3 _ _ _).trans hts0
              obtain ⟨c', p', a', heq, hcs, hpermv⟩ :=
                cgCsmAccept_spec ctx cg sp pl st _ n hops hsp hn hts1
              rw [heq] at h
              have h' := Option.some.inj h
              have e1 : c' = csms := congrArg Prod.fst h'
              have e2 : p' = perms := congrArg (fun q => q.2.1) h'
              subst e1
              subst e2
              exact ⟨hcs, hpermv⟩
            · rw [if_neg hc4] at h
              exact ih st csms perms algos h

/-- Processing a batch of combinations appends aligned (score, permutation,
map, map) entries, all of whose permutations are permutations of `0..n-1`. -/
theorem processCombinations_spec {P : Type} (ctx : MatchCtx P)
    (cg : CoordinationGeometry) (sp : SepPlaneAlgo) (np : ℕ) (n : ℕ)
    (hops : PlaneOpsValid ctx.ops) (hsp : SepPlaneAlgoValid sp n)
    (hn : ctx.coords.length = n) :
    ∀ (combs : List (List Vec3)) (st : SearchState),
      ∃ Δ : List Perm,
        (processCombinations ctx cg sp np combs st).out.csms
          = st.out.csms ++ Δ.map (scoreOf ctx) ∧
        (processCombinations ctx cg sp np combs st).out.perms
          = st.out.perms ++ Δ ∧
        (processCombinations ctx cg sp np combs st).out.local2perfect_maps
          = st.out.local2perfect_maps ++ Δ.map (fun p => (permMaps p).2) ∧
        (processCombinations ctx cg sp np combs st).out.perfect2local_maps
          = st.out.perfect2local_maps ++ Δ.map (fun p => (permMaps p).1) ∧
        ∀ pp ∈ Δ, pp.Perm (List.range n) := by
  intro combs
  induction combs with
  | nil =>
      intro st
      refine ⟨[], by simp [processCombinations], by simp [processCombinations],
        by simp [processCombinations], by simp [processCombinations], ?_⟩
      intro pp hpp; cases hpp
  | cons comb rest ih =>
      intro st
      rcases hbp : buildPlane ctx.ops ctx.central_site np comb with _ | pl
      · simp only [processCombinations, hbp]
        exact ih st
      · rcases hcg : cgCsmSeparationPlane ctx cg sp pl DIST_TOLERANCES st.sep
          with ⟨res, sep'⟩
        rcases res with _ | ⟨⟨csm, perm, algo⟩⟩
        · simp only [processCombinations, hbp, hcg]
          exact ih { st with sep := sep' }
        · have h1 : (cgCsmSeparationPlane ctx cg sp pl DIST_TOLERANCES st.sep).1
              = some (csm, perm, algo) := by rw [hcg]
          obtain ⟨hcs, hpermv⟩ := cgCsm_spec ctx cg sp pl n hops hsp hn
            DIST_TOLERANCES st.sep csm perm algo h1
          obtain ⟨Δ', e1, e2, e3, e4, e5⟩ := ih
            { out := { csms := st.out.csms ++ csm
                       perms := st.out.perms ++ perm
                       algos := st.out.algos ++ algo
                       local2perfect_maps := st.out.local2perfect_maps
                         ++ perm.map (fun p => (permMaps p).2)
                       perfect2local_maps := st.out.perfect2local_maps
                         ++ perm.map (fun p => (permMaps p).1) }
              sep := sep'
              nplanes := st.nplanes + 1 }
          refine ⟨perm ++ Δ', ?_, ?_, ?_, ?_, ?_⟩
          · simp only [processCombinations, hbp, hcg]
            rw [e1]
            simp only [hcs, List.map_append, List.append_assoc]
          · simp only [processCombinations, hbp, hcg]
            rw [e2]
            simp only [List.append_assoc]
          · simp only [processCombinations, hbp, hcg]
            rw [e3]
            simp only [List.map_append, List.append_assoc]
          · simp only [processCombinations, hbp, hcg]
            rw [e4]
            simp only [List.map_append, List.append_assoc]
          · intro pp hpp
            rcases List.mem_append.mp hpp with hmem | hmem
            · exact hpermv pp hmem
            · exact e5 pp hmem

/-- The alignment invariant of a result 5-tuple: scores are the scores of the
permutations, the permutations are permutations of `0..n-1`, and the two map
lists are the `permMaps` of the permutations. -/
def GoodOut {P : Type} (ctx : MatchCtx P) (n : ℕ) (out : CgsmOut) : Prop :=
  out.csms = out.perms.map (scoreOf ctx) ∧
  (∀ pp ∈ out.perms, pp.Perm (List.range n)) ∧
  out.local2perfect_maps = out.perms.map (fun p => (permMaps p).2) ∧
  out.perfect2local_maps = out.perms.map (fun p => (permMaps p).1)

theorem goodOut_append {P : Type} (ctx : MatchCtx P) (n : ℕ) (out : CgsmOut)
    (Δ : List Perm) (hout : GoodOut ctx n out)
    (hΔ : ∀ pp ∈ Δ, pp.Perm (List.range n)) {out' : CgsmOut}
    (h1 : out'.csms = out.csms ++ Δ.map (scoreOf ctx))
    (h2 : out'.perms = out.perms ++ Δ)
    (h3 : out'.local2perfect_maps = out.local2perfect_maps
      ++ Δ.map (fun p => (permMaps p).2))
    (h4 : out'.perfect2local_maps = out.perfect2local_maps
      ++ Δ.map (fun p => (permMaps p).1)) :
    GoodOut ctx n out' := by
  refine ⟨?_, ?_, ?_, ?_⟩
  · rw [h1, h2, hout.1, List.map_append]
  · rw [h2]
    intro pp hpp
    rcases List.mem_append.mp hpp with hmem | hmem
    · exact hout.2.1 pp hmem
    · exact hΔ pp hmem
  · rw [h3, h2, hout.2.2.1, List.map_append]
  · rw [h4, h2, hout.2.2.2, List.map_append]

theorem fallback_goodOut {P : Type} (ctx : MatchCtx P) (n : ℕ) (NRANDOM : ℕ)
    (hrand : ∀ k, (ctx.rand k).Perm (List.range n)) :
    GoodOut ctx n (coordination_geometry_symmetry_measures_fallback_random ctx NRANDOM) := by
  obtain ⟨h1, h2, h3, h4, h5⟩ :=
    fallbackRandomGo_spec ctx (List.range NRANDOM) CgsmOut.empty
  have hfb : coordination_geometry_symmetry_measures_fallback_random ctx NRANDOM
      = fallbackRandomGo ctx (List.range NRANDOM) CgsmOut.empty := rfl
  refine ⟨?_, ?_, ?_, ?_⟩
  · rw [hfb, h2, h1]
    simp only [CgsmOut.empty, List.nil_append]
    exact map_scoreOf ctx _
  · rw [hfb, h1]
    intro pp hpp
    simp only [CgsmOut.empty, List.nil_append, List.mem_map] at hpp
    rcases hpp with ⟨k, _, hk⟩
    rw [← hk]
    exact hrand k
  · rw [hfb, h4, h1]
    simp [CgsmOut.empty]
  · rw [hfb, h5, h1]
    simp [CgsmOut.empty]

set_option maxRecDepth 4000 in
theorem sepPlaneLoop_good {P : Type} (ctx : MatchCtx P) (cg : CoordinationGeometry)
    (sp : SepPlaneAlgo) (n : ℕ) (hops : PlaneOpsValid ctx.ops)
    (hsp : SepPlaneAlgoValid sp n) (hn : ctx.coords.length = n)
    (hrand : ∀ k, (ctx.rand k).Perm (List.range n)) :
    ∀ (l : List ℕ) (st : SearchState), GoodOut ctx n st.out →
      GoodOut ctx n (sepPlaneLoop ctx cg sp l st).1 := by
  intro l
  induction l with
  | nil =>
      intro st hst
      simp only [sepPlaneLoop]
      by_cases h0 : st.nplanes = 0
      · rw [if_pos h0]
        exact fallback_goodOut ctx n 200 hrand
      · rw [if_neg h0]
        exact hst
  | cons np rest ih =>
      intro st hst
      obtain ⟨Δ, e1, e2, e3, e4, e5⟩ := processCombinations_spec ctx cg sp np n
        hops hsp hn (combinationsOf np ctx.coords) st
      have hgood' : GoodOut ctx n
          (processCombinations ctx cg sp np (combinationsOf np ctx.coords) st).out :=
        goodOut_append ctx n st.out Δ hst e5 e1 e2 e3 e4
      simp only [sepPlaneLoop]
      by_cases hb : 0 < (processCombinations ctx cg sp np
          (combinationsOf np ctx.coords) st).nplanes
      · rw [if_pos hb]
        exact hgood'
      · rw [if_neg hb]
        exact ih _ hgood'

/-- Structural description of the standard (explicit-permutation) strategy
accumulator. -/
theorem cgsmStandardGo_spec {P : Type} (ctx : MatchCtx P) (algoStr : String) :
    ∀ (l : List Perm) (acc : CgsmOut),
      (cgsmStandardGo ctx algoStr l acc).csms = acc.csms ++ l.map (scoreOf ctx) ∧
      (cgsmStandardGo ctx algoStr l acc).perms = acc.perms ++ l ∧
      (cgsmStandardGo ctx algoStr l acc).local2perfect_maps
        = acc.local2perfect_maps ++ l.map (fun p => (permMaps p).2) ∧
      (cgsmStandardGo ctx algoStr l acc).perfect2local_maps
        = acc.perfect2local_maps ++ l.map (fun p => (permMaps p).1) := by
  intro l
  induction l with
  | nil => intro acc; simp [cgsmStandardGo]
  | cons perm rest ih =>
      intro acc
      obtain ⟨h1, h2, h3, h4⟩ := ih
        { csms := acc.csms ++ [symmetry_measure ctx.svd
            (pointsApplyPerm ctx.wocs perm) ctx.points_perfect]
          perms := acc.perms ++ [perm]
          algos := acc.algos ++ [algoStr]
          local2perfect_maps := acc.local2perfect_maps ++ [(permMaps perm).2]
          perfect2local_maps := acc.perfect2local_maps ++ [(permMaps perm).1] }
      refine ⟨?_, ?_, ?_, ?_⟩ <;>
        simp [cgsmStandardGo, h1, h2, h3, h4, scoreOf]

/-- All permutations of `0..n-1`, as tested by exhaustive explicit-permutation
matching. -/
def allPermsOf (n : ℕ) : List Perm := (List.range n).permutations

/-- Minimum of a list of rationals with a default (fold of `min`). -/
def listMinD (l : List ℚ) (d : ℚ) : ℚ := l.foldr min d

theorem listMinD_le_of_mem {x : ℚ} (d : ℚ) :
    ∀ {l : List ℚ}, x ∈ l → listMinD l d ≤ x := by
  intro l
  induction l with
  | nil => intro h; cases h
  | cons a t ih =>
      intro h
      rcases List.mem_cons.mp h with rfl | hmem
      · exact min_le_left _ _
      · exact le_trans (min_le_right _ _) (ih hmem)

/-- claim C8: every CSM value produced by the separation-plane search
(including via its random fallback) is bounded below by the minimum CSM of
exhaustive explicit-permutation matching over all `n!` permutations, under the
validity assumptions on the spec-modelled geometric helpers, the catalog
descriptor and the random source.  (The `permutations_safe_override` code path
that the source offers for exhaustive matching is itself broken — it calls the
undefined `symmetry_measure_newpmg`, source line 800 — so exhaustive matching
is modelled as the standard strategy run on all permutations.) -/
theorem claim_C8 {P : Type} (ctx : MatchCtx P) (cg : CoordinationGeometry)
    (sp : SepPlaneAlgo) (tested : Option (List Perm))
    (hops : PlaneOpsValid ctx.ops)
    (hsp : SepPlaneAlgoValid sp cg.coordination_number)
    (hn : ctx.coords.length = cg.coordination_number)
    (hrand : ∀ k, (ctx.rand k).Perm (List.range cg.coordination_number)) :
    ∀ c ∈ (coordination_geometry_symmetry_measures_separation_plane
        ctx cg sp tested).1.csms,
      listMinD (coordination_geometry_symmetry_measures_standard ctx
        (allPermsOf cg.coordination_number)).csms 0 ≤ c := by
  intro c hc
  have hgoodinit : GoodOut ctx cg.coordination_number CgsmOut.empty := by
    refine ⟨rfl, ?_, rfl, rfl⟩
    intro pp hpp
    cases hpp
  have hgood := sepPlaneLoop_good ctx cg sp cg.coordination_number hops hsp hn hrand
    (npointsRange sp) ⟨CgsmOut.empty, ⟨[], tested⟩, 0⟩ hgoodinit
  have hcsms := hgood.1
  rw [show (coordination_geometry_symmetry_measures_separation_plane
      ctx cg sp tested).1
    = (sepPlaneLoop ctx cg sp (npointsRange sp)
        ⟨CgsmOut.empty, ⟨[], tested⟩, 0⟩).1 from rfl] at hc
  rw [hcsms] at hc
  rcases List.mem_map.mp hc with ⟨pp, hppmem, hppc⟩
  have hppperm : pp.Perm (List.range cg.coordination_number) := hgood.2.1 pp hppmem
  have hstd := (cgsmStandardGo_spec ctx EXPLICIT_PERMUTATIONS
    (allPermsOf cg.coordination_number) CgsmOut.empty).1
  have hmem : scoreOf ctx pp ∈ (coordination_geometry_symmetry_measures_standard ctx
      (allPermsOf cg.coordination_number)).csms := by
    rw [show (coordination_geometry_symmetry_measures_standard ctx
        (allPermsOf cg.coordination_number)).csms
      = (cgsmStandardGo ctx EXPLICIT_PERMUTATIONS
          (allPermsOf cg.coordination_number) CgsmOut.empty).csms from rfl, hstd]
    simp only [CgsmOut.empty, List.nil_append]
    apply List.mem_map.mpr
    exact ⟨pp, List.mem_permutations.mpr hppperm, rfl⟩
  rw [← hppc]
  exact listMinD_le_of_mem 0 hmem

theorem trivialOps_valid : PlaneOpsValid trivialOps := by
  refine ⟨?_, ?_, ?_⟩
  · intro pl coords tol
    simp only [trivialOps, sepMerge, List.append_nil]
    exact List.Perm.refl _
  · intro s
    simp only [trivialOps, id]
    exact List.Perm.refl _
  · intro pl pts
    simp only [trivialOps]
    exact List.Perm.refl _

theorem perm_10_range2 : ([1, 0] : List ℕ).Perm (List.range 2) :=
  List.Perm.swap 0 1 []

theorem perm_01_range2 : ([0, 1] : List ℕ).Perm (List.range 2) :=
  List.Perm.refl _

theorem sepAlgo9_valid : SepPlaneAlgoValid sepAlgo9 2 := by
  refine ⟨?_, ?_, ?_⟩
  · intro q hq
    simp only [sepAlgo9, List.mem_singleton] at hq
    subst hq
    exact perm_01_range2
  · intro q hq
    simp [sepAlgo9] at hq
  · exact perm_01_range2

/-- The C8 witness geometry: like `cg9` but without equivalence classes, so
no deduplication applies and the single derived permutation is scored. -/
def cg8 : CoordinationGeometry :=
  { cg9 with mp_symbol := "T:8", equivalent_indices := none }

/-- Witness for claim C8: in the concrete two-neighbor scenario the search
produces exactly one CSM value, and it is bounded below by the exhaustive
minimum over all 2 permutations. -/
theorem claim_C8_witness :
    listMinD (coordination_geometry_symmetry_measures_standard demoCtx
      (allPermsOf 2)).csms 0
      ≤ (coordination_geometry_symmetry_measures_separation_plane demoCtx cg8
          sepAlgo9 none).1.csms.headD 0 := by
  have h := claim_C8 demoCtx cg8 sepAlgo9 none trivialOps_valid sepAlgo9_valid rfl
    (fun _ => perm_10_range2)
  have hm : (coordination_geometry_symmetry_measures_separation_plane demoCtx cg8
      sepAlgo9 none).1.csms = [scoreOf demoCtx [0, 1]] := rfl
  have hle := h (scoreOf demoCtx [0, 1]) (by rw [hm]; exact List.mem_singleton.mpr rfl)
  rw [hm]
  exact hle

/-! Python-dict lookup lemmas for the index maps (C10). -/

theorem lookup_eq_of_mem_nodupkeys :
    ∀ (m : IdxMap) (k v : ℕ), (k, v) ∈ m → (m.map Prod.fst).Nodup →
      List.lookup k m = some v := by
  intro m
  induction m with
  | nil => intro k v h _; cases h
  | cons kv rest ih =>
      intro k v hmem hnd
      rcases kv with ⟨k', v'⟩
      by_cases hk : k = k'
      · subst hk
        have hnd' : k ∉ rest.map Prod.fst ∧ (rest.map Prod.fst).Nodup := by
          rw [List.map_cons] at hnd
          exact List.nodup_cons.mp hnd
        rcases List.mem_cons.mp hmem with heq | htail
        · have hv : v = v' := congrArg Prod.snd heq
          subst hv
          simp [List.lookup]
        · exact absurd (List.mem_map.mpr ⟨(k, v), htail, rfl⟩) hnd'.1
      · have hb : (k == k') = false := beq_eq_false_iff_ne.mpr hk
        have hnd' : (rest.map Prod.fst).Nodup := by
          rw [List.map_cons] at hnd
          exact (List.nodup_cons.mp hnd).2
        have htail : (k, v) ∈ rest := by
          rcases List.mem_cons.mp hmem with heq | ht
          · exact absurd (congrArg Prod.fst heq) hk
          · exact ht
        simp only [List.lookup, hb]
        exact ih k v htail hnd'

theorem dictGet_eq_of_mem (m : IdxMap) (k v : ℕ) (h : (k, v) ∈ m)
    (hnd : (m.map Prod.fst).Nodup) : dictGet m k = some v := by
  unfold dictGet
  apply lookup_eq_of_mem_nodupkeys
  · exact List.mem_reverse.mpr h
  · rw [List.map_reverse]
    exact List.nodup_reverse.mpr hnd

theorem permMaps_p2l_keys (perm : Perm) :
    (permMaps perm).1.map Prod.fst = List.range perm.length := by
  unfold permMaps
  rw [List.map_map]
  have h : (Prod.fst ∘ fun q : ℕ × ℕ => (q.1, q.2)) = Prod.fst := rfl
  rw [h, List.enum_map_fst]

theorem permMaps_l2p_keys (perm : Perm) :
    (permMaps perm).2.map Prod.fst = perm := by
  unfold permMaps
  rw [List.map_map]
  have h : (Prod.fst ∘ fun q : ℕ × ℕ => (q.2, q.1)) = Prod.snd := rfl
  rw [h, List.enum_map_snd]

theorem mem_p2l (perm : Perm) (i : ℕ) (hi : i < perm.length) :
    (i, perm.getD i 0) ∈ (permMaps perm).1 := by
  unfold permMaps
  apply List.mem_map.mpr
  refine ⟨(i, perm.getD i 0), ?_, rfl⟩
  apply List.mk_mem_enum_iff_getElem?.mpr
  rw [List.getElem?_eq_getElem hi, List.getD_eq_getElem perm 0 hi]

theorem mem_l2p (perm : Perm) (i : ℕ) (hi : i < perm.length) :
    (perm.getD i 0, i) ∈ (permMaps perm).2 := by
  unfold permMaps
  apply List.mem_map.mpr
  refine ⟨(i, perm.getD i 0), ?_, rfl⟩
  apply List.mk_mem_enum_iff_getElem?.mpr
  rw [List.getElem?_eq_getElem hi, List.getD_eq_getElem perm 0 hi]

/-- For a genuine permutation of `0..n-1`, the two maps built by the shared
loop are mutual inverses on `0..n-1`. -/
theorem permMaps_roundtrip (perm : Perm) (n : ℕ) (hperm : perm.Perm (List.range n))
    (i : ℕ) (hi : i < n) :
    ((dictGet (permMaps perm).1 i).bind (dictGet (permMaps perm).2) = some i) ∧
    ((dictGet (permMaps perm).2 i).bind (dictGet (permMaps perm).1) = some i) := by
  have hlen : perm.length = n := perm_length_range hperm
  have hnd : perm.Nodup := hperm.nodup_iff.mpr (List.nodup_range n)
  have hkeys1 : ((permMaps perm).1.map Prod.fst).Nodup := by
    rw [permMaps_p2l_keys]
    exact List.nodup_range _
  have hkeys2 : ((permMaps perm).2.map Prod.fst).Nodup := by
    rw [permMaps_l2p_keys]
    exact hnd
  have hi' : i < perm.length := by rw [hlen]; exact hi
  constructor
  · rw [dictGet_eq_of_mem _ _ _ (mem_p2l perm i hi') hkeys1]
    show dictGet (permMaps perm).2 (perm.getD i 0) = some i
    exact dictGet_eq_of_mem _ _ _ (mem_l2p perm i hi') hkeys2
  · have himem : i ∈ perm := hperm.mem_iff.mpr (List.mem_range.mpr hi)
    obtain ⟨j, hj, hji⟩ := List.mem_iff_getElem.mp himem
    have hgetD : perm.getD j 0 = i := by
      rw [List.getD_eq_getElem perm 0 hj, hji]
    have hm2 : (i, j) ∈ (permMaps perm).2 := by
      rw [← hgetD]
      exact mem_l2p perm j hj
    rw [dictGet_eq_of_mem _ _ _ hm2 hkeys2]
    show dictGet (permMaps perm).1 j = some i
    have hm1 := mem_p2l perm j hj
    rw [hgetD] at hm1
    exact dictGet_eq_of_mem _ _ _ hm1 hkeys1

theorem getD_map_of_lt {α β : Type} (f : α → β) :
    ∀ (l : List α) (k : ℕ), k < l.length → ∀ (d : α) (d' : β),
      (l.map f).getD k d' = f (l.getD k d) := by
  intro l
  induction l with
  | nil => intro k hk; exact absurd hk (Nat.not_lt_zero k)
  | cons a t ih =>
      intro k hk d d'
      cases k with
      | zero => rfl
      | succ k' =>
          simp only [List.map_cons, List.getD_cons_succ]
          exact ih k' (by simpa using hk) d d'

/-- Any result tuple satisfying the alignment invariant has mutually inverse
index maps at every entry. -/
theorem goodOut_roundtrip {P : Type} (ctx : MatchCtx P) {n : ℕ} {out : CgsmOut}
    (h : GoodOut ctx n out) (k i : ℕ) (hk : k < out.perms.length) (hi : i < n) :
    ((dictGet (out.perfect2local_maps.getD k []) i).bind
      (dictGet (out.local2perfect_maps.getD k [])) = some i) ∧
    ((dictGet (out.local2perfect_maps.getD k []) i).bind
      (dictGet (out.perfect2local_maps.getD k [])) = some i) := by
  have hl2p : out.local2perfect_maps.getD k [] = (permMaps (out.perms.getD k [])).2 := by
    rw [h.2.2.1]
    exact getD_map_of_lt _ out.perms k hk [] []
  have hp2l : out.perfect2local_maps.getD k [] = (permMaps (out.perms.getD k [])).1 := by
    rw [h.2.2.2]
    exact getD_map_of_lt _ out.perms k hk [] []
  have hpp : (out.perms.getD k []).Perm (List.range n) := by
    apply h.2.1
    rw [List.getD_eq_getElem out.perms [] hk]
    exact List.getElem_mem hk
  rw [hl2p, hp2l]
  exact permMaps_roundtrip _ n hpp i hi

theorem standard_goodOut {P : Type} (ctx : MatchCtx P) (n : ℕ) (ps : List Perm)
    (hv : ∀ q ∈ ps, q.Perm (List.range n)) :
    GoodOut ctx n (coordination_geometry_symmetry_measures_standard ctx ps) := by
  obtain ⟨h1, h2, h3, h4⟩ := cgsmStandardGo_spec ctx EXPLICIT_PERMUTATIONS ps CgsmOut.empty
  have e : coordination_geometry_symmetry_measures_standard ctx ps
      = cgsmStandardGo ctx EXPLICIT_PERMUTATIONS ps CgsmOut.empty := rfl
  refine ⟨?_, ?_, ?_, ?_⟩
  · rw [e, h1, h2]
    simp [CgsmOut.empty]
  · rw [e, h2]
    simpa [CgsmOut.empty] using hv
  · rw [e, h3, h2]
    simp [CgsmOut.empty]
  · rw [e, h4, h2]
    simp [CgsmOut.empty]

/-- claim C10: for every entry returned by any of the three strategies —
explicit permutations (standard), separation-plane search, random fallback —
the local-to-perfect and perfect-to-local maps are mutual inverses on the
permutation's domain `0..n-1` (in both composition orders), given valid
permutations: the catalog's listed permutations, the validity of the
spec-modelled geometric helpers, or the random source, respectively. -/
theorem claim_C10 :
    (∀ (P : Type) (ctx : MatchCtx P) (n : ℕ) (ps : List Perm),
      (∀ q ∈ ps, q.Perm (List.range n)) → ∀ k i,
      k < (coordination_geometry_symmetry_measures_standard ctx ps).perms.length →
      i < n →
      ((dictGet ((coordination_geometry_symmetry_measures_standard ctx
          ps).perfect2local_maps.getD k []) i).bind
        (dictGet ((coordination_geometry_symmetry_measures_standard ctx
          ps).local2perfect_maps.getD k [])) = some i) ∧
      ((dictGet ((coordination_geometry_symmetry_measures_standard ctx
          ps).local2perfect_maps.getD k []) i).bind
        (dictGet ((coordination_geometry_symmetry_measures_standard ctx
          ps).perfect2local_maps.getD k [])) = some i)) ∧
    (∀ (P : Type) (ctx : MatchCtx P) (cg : CoordinationGeometry) (sp : SepPlaneAlgo)
      (tested : Option (List Perm)),
      PlaneOpsValid ctx.ops → SepPlaneAlgoValid sp cg.coordination_number →
      ctx.coords.length = cg.coordination_number →
      (∀ k, (ctx.rand k).Perm (List.range cg.coordination_number)) → ∀ k i,
      k < (coordination_geometry_symmetry_measures_separation_plane ctx cg sp
        tested).1.perms.length →
      i < cg.coordination_number →
      ((dictGet ((coordination_geometry_symmetry_measures_separation_plane ctx cg sp
          tested).1.perfect2local_maps.getD k []) i).bind
        (dictGet ((coordination_geometry_symmetry_measures_separation_plane ctx cg sp
          tested).1.local2perfect_maps.getD k [])) = some i) ∧
      ((dictGet ((coordination_geometry_symmetry_measures_separation_plane ctx cg sp
          tested).1.local2perfect_maps.getD k []) i).bind
        (dictGet ((coordination_geometry_symmetry_measures_separation_plane ctx cg sp
          tested).1.perfect2local_maps.getD k [])) = some i)) ∧
    (∀ (P : Type) (ctx : MatchCtx P) (n : ℕ) (NRANDOM : ℕ),
      (∀ j, (ctx.rand j).Perm (List.range n)) → ∀ k i,
      k < (coordination_geometry_symmetry_measures_fallback_random ctx
        NRANDOM).perms.length →
      i < n →
      ((dictGet ((coordination_geometry_symmetry_measures_fallback_random ctx
          NRANDOM).perfect2local_maps.getD k []) i).bind
        (dictGet ((coordination_geometry_symmetry_measures_fallback_random ctx
          NRANDOM).local2perfect_maps.getD k [])) = some i) ∧
      ((dictGet ((coordination_geometry_symmetry_measures_fallback_random ctx
          NRANDOM).local2perfect_maps.getD k []) i).bind
        (dictGet ((coordination_geometry_symmetry_measures_fallback_random ctx
          NRANDOM).perfect2local_maps.getD k [])) = some i)) := by
  refine ⟨?_, ?_, ?_⟩
  · intro P ctx n ps hv k i hk hi
    exact goodOut_roundtrip ctx (standard_goodOut ctx n ps hv) k i hk hi
  · intro P ctx cg sp tested hops hsp hn hrand k i hk hi
    have hgoodinit : GoodOut ctx cg.coordination_number CgsmOut.empty := by
      refine ⟨rfl, ?_, rfl, rfl⟩
      intro pp hpp
      cases hpp
    have hgood := sepPlaneLoop_good ctx cg sp cg.coordination_number hops hsp hn hrand
      (npointsRange sp) ⟨CgsmOut.empty, ⟨[], tested⟩, 0⟩ hgoodinit
    exact goodOut_roundtrip ctx hgood k i hk hi
  · intro P ctx n NRANDOM hrand k i hk hi
    exact goodOut_roundtrip ctx (fallback_goodOut ctx n NRANDOM hrand) k i hk hi

/-- Witness for claim C10: one concrete roundtrip per strategy (entry 0,
index 0). -/
theorem claim_C10_witness :
    ((dictGet ((coordination_geometry_symmetry_measures_standard demoCtx
        [[0, 1], [1, 0]]).perfect2local_maps.getD 0 []) 0).bind
      (dictGet ((coordination_geometry_symmetry_measures_standard demoCtx
        [[0, 1], [1, 0]]).local2perfect_maps.getD 0 [])) = some 0) ∧
    ((dictGet ((coordination_geometry_symmetry_measures_separation_plane demoCtx cg8
        sepAlgo9 none).1.perfect2local_maps.getD 0 []) 0).bind
      (dictGet ((coordination_geometry_symmetry_measures_separation_plane demoCtx cg8
        sepAlgo9 none).1.local2perfect_maps.getD 0 [])) = some 0) ∧
    ((dictGet ((coordination_geometry_symmetry_measures_fallback_random demoCtx
        3).perfect2local_maps.getD 0 []) 0).bind
      (dictGet ((coordination_geometry_symmetry_measures_fallback_random demoCtx
        3).local2perfect_maps.getD 0 [])) = some 0) := by
  have hv : ∀ q ∈ ([[0, 1], [1, 0]] : List Perm), q.Perm (List.range 2) := by
    intro q hq
    rcases List.mem_cons.mp hq with rfl | hq'
    · exact perm_01_range2
    · rcases List.mem_cons.mp hq' with rfl | hq''
      · exact perm_10_range2
      · cases hq''
  refine ⟨?_, ?_, ?_⟩
  · exact (claim_C10.1 Unit demoCtx 2 [[0, 1], [1, 0]] hv 0 0
      (by decide) (by decide)).1
  · exact (claim_C10.2.1 Unit demoCtx cg8 sepAlgo9 none trivialOps_valid
      sepAlgo9_valid rfl (fun _ => perm_10_range2) 0 0 (by decide) (by decide)).1
  · exact (claim_C10.2.2 Unit demoCtx 2 3 (fun _ => perm_10_range2) 0 0
      (by decide) (by decide)).1
